import Mathlib

/-!
Verification of the download-count aggregation engine of the crates.io
registry backend (`src/bin/update-downloads.rs`).

The relational store is modelled as lists of rows; SQL statements of the
source are translated one by one into pure list operations.  Wall-clock
time is a parameter (`nows` gives the time observed at the start of each
page, since the source calls `time::now_utc()` once per `collect` call).
Transient store failures are injected through a schedule of booleans
consumed one entry per store operation (`[]` means every operation
succeeds).  The postgres nested-transaction contract is modelled at the
driver level: a run's resulting state is durable only when `update`
returns `ok`; on an error the pre-run state is kept (`mainCommit`), and
`main`'s `.unwrap()` turns the error into process termination
(`daemonGo` stops with the error).
-/

/-- Row of the `version_downloads` table (struct `VersionDownload` in the
source).  `date` is a timestamp in seconds, comparable with the freeze
cutoff like the source's `Timespec` values. -/
structure VersionDownload where
  id : Int
  version_id : Int
  date : Int
  downloads : Int
  counted : Int
  processed : Bool
deriving DecidableEq, Repr

/-- Row of the `versions` table, restricted to the columns the job reads
and writes (`id`, `crate_id`, `downloads`). -/
structure Version where
  id : Int
  crate_id : Int
  downloads : Int
deriving DecidableEq, Repr

/-- Row of the `crates` table, restricted to `id` and `downloads`. -/
structure Crate where
  id : Int
  downloads : Int
deriving DecidableEq, Repr

/-- Row of the `crate_downloads` daily-aggregate table. -/
structure CrateDownload where
  crate_id : Int
  date : Int
  downloads : Int
deriving DecidableEq, Repr

/-- The relational store visible to the job: the four tables plus the
single global counter `metadata.total_downloads`. -/
structure Store where
  version_downloads : List VersionDownload
  versions : List Version
  crates : List Crate
  crate_downloads : List CrateDownload
  total_downloads : Int
deriving DecidableEq, Repr

/-- Errors a run can end with: an injected transient store failure, the
panicking `Version::find(..).unwrap()` on a missing version row, the
panicking duplicate-id assert in `collect`, or exhaustion of the
recursion fuel (never reached with the fuel chosen by `update`). -/
inductive DbErr where
  | transient
  | versionNotFound (vid : Int)
  | duplicateId
  | fuelExhausted
deriving DecidableEq, Repr

deriving instance DecidableEq for Except

/-- Consume one entry of the failure schedule: an empty schedule means
success forever, a `true` entry makes the next store operation fail. -/
def step : List Bool → Except DbErr (List Bool)
  | [] => .ok []
  | true :: _ => .error .transient
  | false :: rest => .ok rest

/-- Run a store operation (one schedule entry), then continue. -/
def withStep (sched : List Bool) (k : List Bool → Except DbErr α) : Except DbErr α :=
  match step sched with
  | .error e => .error e
  | .ok sched => k sched

/-- Page size: `static LIMIT: i64 = 10000` in the source. -/
def LIMIT : Int := 10000

/-- Seconds in `Duration::days(1)`, used for the freeze cutoff
`now_utc() + Duration::days(-1)`. -/
def secondsPerDay : Int := 86400

/-- The `ORDER BY id ASC` of the page query. -/
def leById (a b : VersionDownload) : Prop := a.id ≤ b.id

instance : DecidableRel leById := fun a b => inferInstanceAs (Decidable (a.id ≤ b.id))

instance : IsTotal VersionDownload leById := ⟨fun a b => Int.le_total a.id b.id⟩

instance : IsTrans VersionDownload leById := ⟨fun _ _ _ h₁ h₂ => le_trans h₁ h₂⟩

/-- Sort rows ascending by `id` (the page query's `ORDER BY id ASC`). -/
def sortById (l : List VersionDownload) : List VersionDownload :=
  List.insertionSort leById l

/-- All rows eligible for paging: `processed = FALSE AND id > max`, in
ascending id order. -/
def pending (s : Store) (max : Int) : List VersionDownload :=
  sortById (s.version_downloads.filter (fun r => !r.processed && decide (max < r.id)))

/-- The page query of `update`:
`SELECT * FROM version_downloads WHERE processed = FALSE AND id > $1 ORDER BY id ASC LIMIT $2`. -/
def pageQuery (s : Store) (max : Int) : List VersionDownload :=
  (pending s max).take LIMIT.toNat

/-- `SELECT` behind `Version::find`: look a version up by id. -/
def findVersion (s : Store) (vid : Int) : Option Version :=
  s.versions.find? (fun v => v.id == vid)

/-- `UPDATE versions SET downloads = downloads + $1 WHERE id = $2`. -/
def bumpVersion (s : Store) (vid amt : Int) : Store :=
  { s with versions := s.versions.map (fun v =>
      if v.id == vid then { v with downloads := v.downloads + amt } else v) }

/-- `UPDATE crates SET downloads = downloads + $1 WHERE id = $2`. -/
def bumpCrate (s : Store) (cid amt : Int) : Store :=
  { s with crates := s.crates.map (fun c =>
      if c.id == cid then { c with downloads := c.downloads + amt } else c) }

/-- Number of rows matched by the daily-aggregate `UPDATE` (the source
reads its affected-row count `cnt`). -/
def dailyMatches (s : Store) (cid date : Int) : Nat :=
  (s.crate_downloads.filter (fun d => d.crate_id == cid && d.date == date)).length

/-- `UPDATE crate_downloads SET downloads = downloads + $2 WHERE crate_id = $1 AND date = date($3)`. -/
def bumpDaily (s : Store) (cid date amt : Int) : Store :=
  { s with crate_downloads := s.crate_downloads.map (fun d =>
      if d.crate_id == cid && d.date == date then { d with downloads := d.downloads + amt } else d) }

/-- `INSERT INTO crate_downloads (crate_id, downloads, date) VALUES ($1, $2, $3)`. -/
def insertDaily (s : Store) (cid date amt : Int) : Store :=
  { s with crate_downloads := s.crate_downloads ++ [⟨cid, date, amt⟩] }

/-- `UPDATE version_downloads SET processed = $2, counted = downloads WHERE id = $1`.
`counted` is set from the row's live `downloads` column, as in the SQL. -/
def markRow (s : Store) (rid : Int) (flag : Bool) : Store :=
  { s with version_downloads := s.version_downloads.map (fun x =>
      if x.id == rid then { x with processed := flag, counted := x.downloads } else x) }

/-- Accumulator of `collect`'s per-row loop: the evolving store, the
page-local `max` and `total` of the source, and the failure schedule. -/
structure RowAcc where
  s : Store
  max : Int
  total : Int
  sched : List Bool
deriving DecidableEq, Repr

/-- Body of `collect`'s `for (id, download) in map.iter()` loop for a
single row, with the store operations in source order. -/
def collectRow (cutoff : Int) (acc : RowAcc) (r : VersionDownload) : Except DbErr RowAcc :=
  let m := if r.id > acc.max then r.id else acc.max
  if r.counted == r.downloads then
    .ok { acc with max := m }
  else
    let amt := r.downloads - r.counted
    withStep acc.sched fun sch1 =>
    match findVersion acc.s r.version_id with
    | none => .error (.versionNotFound r.version_id)
    | some v =>
      withStep sch1 fun sch2 =>
      let s1 := bumpVersion acc.s r.version_id amt
      withStep sch2 fun sch3 =>
      let s2 := bumpCrate s1 v.crate_id amt
      withStep sch3 fun sch4 =>
      let cnt := dailyMatches s2 v.crate_id r.date
      let s3 := bumpDaily s2 v.crate_id r.date amt
      match (if cnt == 0 then
               withStep sch4 fun sch5 => .ok (insertDaily s3 v.crate_id r.date amt, sch5)
             else .ok (s3, sch4) : Except DbErr (Store × List Bool)) with
      | .error e => .error e
      | .ok (s4, sch5) =>
        withStep sch5 fun sch6 =>
        .ok { s := markRow s4 r.id (decide (r.date < cutoff)),
              max := m, total := acc.total + amt, sched := sch6 }

/-- The per-row loop of `collect` over a fetched page. -/
def collectRows (cutoff : Int) : RowAcc → List VersionDownload → Except DbErr RowAcc
  | acc, [] => .ok acc
  | acc, r :: rs =>
    match collectRow cutoff acc r with
    | .error e => .error e
    | .ok acc2 => collectRows cutoff acc2 rs

/-- The source's `collect`: freeze cutoff from the wall clock at the start
of this page, the duplicate-id assert of the `HashMap` build, the
empty-page early return, the per-row loop, and the final
`UPDATE metadata SET total_downloads = total_downloads + $1`.
The `HashMap` iteration order is modelled as the page order. -/
def collect (s : Store) (page : List VersionDownload) (now : Int) (sched : List Bool) :
    Except DbErr (Store × Option Int × List Bool) :=
  let cutoff := now - secondsPerDay
  if (page.map (fun r => r.id)).Nodup then
    if page.length == 0 then
      .ok (s, none, sched)
    else
      match collectRows cutoff { s := s, max := 0, total := 0, sched := sched } page with
      | .error e => .error e
      | .ok acc =>
        withStep acc.sched fun sch2 =>
        .ok ({ acc.s with total_downloads := acc.s.total_downloads + acc.total },
             some acc.max, sch2)
  else .error .duplicateId

/-- The page loop of the source's `update`, with a fuel argument standing
in for the unbounded `loop`.  Each iteration opens a sub-transaction,
issues the page query (one store operation), calls `collect`, and stops
at the first empty page.  The fetched pages are returned alongside the
final store for use in the statements below. -/
def updateGo (nows : Nat → Int) :
    Nat → Store → Int → Nat → List Bool →
      Except DbErr (Store × List (List VersionDownload) × List Bool)
  | 0, _, _, _, _ => .error .fuelExhausted
  | fuel + 1, s, max, k, sched =>
    withStep sched fun sched =>
    let page := pageQuery s max
    match collect s page (nows k) sched with
    | .error e => .error e
    | .ok (s2, none, sched) => .ok (s2, [page], sched)
    | .ok (s2, some m, sched) =>
      match updateGo nows fuel s2 m (k + 1) sched with
      | .error e => .error e
      | .ok (s3, pages, sched) => .ok (s3, page :: pages, sched)

/-- The source's `update`: start at `max = 0` and loop until an empty
page.  The fuel `length + 1` always suffices (shown below). -/
def update (s : Store) (nows : Nat → Int) (sched : List Bool) :
    Except DbErr (Store × List (List VersionDownload) × List Bool) :=
  updateGo nows (s.version_downloads.length + 1) s 0 0 sched

/-- One iteration of `main`'s loop at the store level: the top-level
transaction is committed (`tx.set_commit(); tx.finish()`) only when
`update` returned `Ok`; on an error the transaction is dropped and rolled
back, keeping the pre-run store. -/
def mainCommit (s : Store) (nows : Nat → Int) (sched : List Bool) : Store :=
  match update s nows sched with
  | .ok (s2, _, _) => s2
  | .error _ => s

/-- `main`'s daemon loop for a given number of sleep cycles: each cycle
runs `update` inside a fresh top-level transaction; `update(&tx).unwrap()`
turns a failed run into a panic that terminates the whole process, which
the model renders as stopping with the error. -/
def daemonGo (nowss : Nat → Nat → Int) (scheds : Nat → List Bool) :
    Nat → Nat → Store → Except DbErr Store
  | _, 0, s => .ok s
  | k, n + 1, s =>
    match update s (nowss k) (scheds k) with
    | .error e => .error e
    | .ok (s2, _, _) => daemonGo nowss scheds (k + 1) n s2

/-- Split a list into consecutive pages of `LIMIT` rows (fuelled so that
the kernel can evaluate it on concrete inputs). -/
def chunksGo : Nat → List VersionDownload → List (List VersionDownload)
  | 0, _ => []
  | _, [] => []
  | fuel + 1, l@(_ :: _) => l.take LIMIT.toNat :: chunksGo fuel (l.drop LIMIT.toNat)

/-- The pages a run fetches from a backlog `l`: consecutive `LIMIT`-sized
pieces of `l`. -/
def chunksP (l : List VersionDownload) : List (List VersionDownload) :=
  chunksGo l.length l

/-- Index of the page of `cs` that contains a row with id `i`, if any. -/
def chunkIdx : List (List VersionDownload) → Int → Option Nat
  | [], _ => none
  | c :: cs, i =>
    if c.any (fun r => r.id == i) then some 0 else (chunkIdx cs i).map (· + 1)

/-- Unrecorded portion of a row's counter: `downloads - counted`. -/
def rowDelta (r : VersionDownload) : Int := r.downloads - r.counted

/-- Total delta a page contributes to the global counter. -/
def pageDelta (page : List VersionDownload) : Int := (page.map rowDelta).sum

/-- Sum of the deltas of the rows of `L` that belong to version `vid`. -/
def versionsDelta (L : List VersionDownload) (vid : Int) : Int :=
  (L.map (fun r => if r.version_id == vid then rowDelta r else 0)).sum

/-- Crate owning a row's version, resolved in store `s` (0 when the
version is absent; such rows never contribute a nonzero delta under the
hypotheses used below). -/
def crateOf (s : Store) (r : VersionDownload) : Int :=
  match findVersion s r.version_id with
  | some v => v.crate_id
  | none => 0

/-- Sum of the deltas of the rows of `L` whose owning crate is `cid`. -/
def cratesDelta (s : Store) (L : List VersionDownload) (cid : Int) : Int :=
  (L.map (fun r => if crateOf s r == cid then rowDelta r else 0)).sum

/-- Effect of one daily-aggregate upsert on the `crate_downloads` table:
the `UPDATE` on all `(crate_id, date)` matches followed by the `INSERT`
when no row matched. -/
def upsertDaily (ds : List CrateDownload) (cid date amt : Int) : List CrateDownload :=
  (ds.map (fun d => if d.crate_id == cid && d.date == date then
      { d with downloads := d.downloads + amt } else d))
    ++ (if (ds.filter (fun d => d.crate_id == cid && d.date == date)).length == 0 then
          [⟨cid, date, amt⟩] else [])

/-- Replay of the daily upserts of all non-skipped rows of `L`, with
crates resolved in `s`. -/
def dailyReplay (s : Store) (L : List VersionDownload) (ds : List CrateDownload) :
    List CrateDownload :=
  L.foldl (fun ds r =>
    if r.counted == r.downloads then ds
    else upsertDaily ds (crateOf s r) r.date (rowDelta r)) ds

/-- Final value of a `version_downloads` row after a run whose pages are
`cs` and whose page clocks start at index `k0` of `nows`: rows fetched in
page `j` with something to count are written with that page's cutoff,
all other rows are untouched. -/
def finalizeRow (cs : List (List VersionDownload)) (k0 : Nat) (nows : Nat → Int)
    (x : VersionDownload) : VersionDownload :=
  match chunkIdx cs x.id with
  | none => x
  | some j =>
    if x.counted == x.downloads then x
    else { x with processed := decide (x.date < nows (k0 + j) - secondsPerDay),
                  counted := x.downloads }

/-- Rows touched by one page, by id: fetched rows with a nonzero delta
are written with the page's cutoff. -/
def pageMark (cutoff : Int) (ids : List Int) (x : VersionDownload) : VersionDownload :=
  if ids.contains x.id && !(x.counted == x.downloads) then
    { x with processed := decide (x.date < cutoff), counted := x.downloads }
  else x

/-- Pure composite effect of one reconciled row (the five writes of the
source in order), used to state the success case of `collectRow`. -/
def applyRow (s : Store) (cid : Int) (r : VersionDownload) (cutoff : Int) : Store :=
  let amt := r.downloads - r.counted
  let s1 := bumpVersion s r.version_id amt
  let s2 := bumpCrate s1 cid amt
  let cnt := dailyMatches s2 cid r.date
  let s3 := bumpDaily s2 cid r.date amt
  let s4 := if cnt == 0 then insertDaily s3 cid r.date amt else s3
  markRow s4 r.id (decide (r.date < cutoff))

/-- The source's `max` tracking: fold of `if *id > max` over a page. -/
def pageMax (m : Int) : List VersionDownload → Int
  | [] => m
  | r :: rs => pageMax (if r.id > m then r.id else m) rs

/-- Ids of the `version_downloads` table are distinct (its primary key). -/
def NodupIds (s : Store) : Prop :=
  (s.version_downloads.map (fun r => r.id)).Nodup

instance (s : Store) : Decidable (NodupIds s) := by
  unfold NodupIds
  infer_instance

/-- Referential integrity used by the run: every unprocessed row with a
nonzero delta references an existing version. -/
def LookupsOk (s : Store) : Prop :=
  ∀ r ∈ s.version_downloads, r.processed = false → r.counted ≠ r.downloads →
    ∃ v ∈ s.versions, v.id = r.version_id

instance (s : Store) : Decidable (LookupsOk s) := by
  unfold LookupsOk
  infer_instance

/-- Identity of the `versions` table that the run never changes: ids and
crate ownership. -/
def versionSig (s : Store) : List (Int × Int) :=
  s.versions.map (fun v => (v.id, v.crate_id))

/-- Strict id order, used for uniqueness of the sorted page order. -/
def ltById (a b : VersionDownload) : Prop := a.id < b.id

instance : IsAntisymm VersionDownload ltById :=
  ⟨fun a b h₁ h₂ => absurd (lt_trans h₁ h₂) (lt_irrefl a.id)⟩

/-- Concrete stores and rows used to instantiate the theorems below. -/
def c1s0 : Store :=
  { version_downloads := [⟨1, 1, 0, 1, 0, false⟩], versions := [⟨1, 1, 0⟩],
    crates := [⟨1, 0⟩], crate_downloads := [], total_downloads := 0 }

def c1s1 : Store :=
  { version_downloads := [⟨1, 1, 0, 1, 1, false⟩], versions := [⟨1, 1, 1⟩],
    crates := [⟨1, 1⟩], crate_downloads := [⟨1, 0, 1⟩], total_downloads := 1 }

def c2s0 : Store :=
  { version_downloads := [⟨1, 1, 0, 2, 1, false⟩, ⟨2, 1, 0, 1, 0, false⟩],
    versions := [⟨1, 1, 0⟩], crates := [⟨1, 0⟩], crate_downloads := [],
    total_downloads := 0 }

def rangeRows (n : Nat) : List VersionDownload :=
  (List.range n).map (fun i =>
    { id := Int.ofNat i + 1, version_id := 1, date := 0, downloads := 7, counted := 7,
      processed := false })

def c3front : List VersionDownload := rangeRows 10000

def c3row : VersionDownload :=
  { id := 10001, version_id := 1, date := 913605, downloads := 1, counted := 0,
    processed := false }

def c3s0 : Store :=
  { version_downloads := c3front ++ [c3row], versions := [⟨1, 1, 0⟩],
    crates := [⟨1, 0⟩], crate_downloads := [], total_downloads := 0 }

def c3nows : Nat → Int := fun k => 1000000 + 10 * (k : Int)

def c3rowFinal : VersionDownload :=
  { id := 10001, version_id := 1, date := 913605, downloads := 1, counted := 1,
    processed := true }

def c3ws0 : Store :=
  { version_downloads := [⟨1, 1, 0, 1, 0, false⟩], versions := [⟨1, 1, 0⟩],
    crates := [⟨1, 0⟩], crate_downloads := [], total_downloads := 0 }

def c4s : Store :=
  { version_downloads := [⟨1, 1, 0, 5, 5, false⟩], versions := [⟨1, 1, 0⟩],
    crates := [⟨1, 0⟩], crate_downloads := [], total_downloads := 7 }

def c4row : VersionDownload := ⟨1, 1, 0, 5, 5, false⟩

def c4ws : Store :=
  { version_downloads := [⟨1, 1, 0, 3, 0, false⟩], versions := [⟨1, 1, 0⟩],
    crates := [⟨1, 0⟩], crate_downloads := [], total_downloads := 0 }

def c4wrow : VersionDownload := ⟨1, 1, 0, 3, 0, false⟩

def c4ws1 : Store :=
  { version_downloads := [⟨1, 1, 0, 3, 3, true⟩], versions := [⟨1, 1, 3⟩],
    crates := [⟨1, 3⟩], crate_downloads := [⟨1, 0, 3⟩], total_downloads := 3 }

def c5s : Store :=
  { version_downloads := [⟨1, 1, 5, 0, 5, false⟩], versions := [⟨1, 1, 10⟩],
    crates := [⟨1, 20⟩], crate_downloads := [], total_downloads := 100 }

def c5row : VersionDownload := ⟨1, 1, 5, 0, 5, false⟩

def c5s1 : Store :=
  { version_downloads := [⟨1, 1, 5, 0, 0, false⟩], versions := [⟨1, 1, 5⟩],
    crates := [⟨1, 15⟩], crate_downloads := [⟨1, 5, -5⟩], total_downloads := 95 }

def c5fam (d c : Int) : Store :=
  { version_downloads := [⟨1, 1, 5, d, c, false⟩], versions := [⟨1, 1, 10⟩],
    crates := [⟨1, 20⟩], crate_downloads := [], total_downloads := 100 }

def c6s : Store :=
  { version_downloads := [⟨1, 1, 0, 4, 2, false⟩], versions := [⟨1, 1, 0⟩],
    crates := [⟨1, 0⟩], crate_downloads := [], total_downloads := 0 }

def c7s : Store :=
  { version_downloads := [⟨1, 1, 0, 9, 0, true⟩, ⟨2, 1, 0, 4, 1, false⟩],
    versions := [⟨1, 1, 0⟩], crates := [⟨1, 0⟩], crate_downloads := [],
    total_downloads := 0 }

def c8s : Store :=
  { version_downloads := [⟨1, 1, 0, 2, 1, false⟩, ⟨2, 1, 0, 1, 0, false⟩],
    versions := [⟨1, 1, 0⟩], crates := [⟨1, 0⟩], crate_downloads := [],
    total_downloads := 0 }

def c9s : Store :=
  { version_downloads := [⟨1, 1, 0, 2, 0, false⟩], versions := [⟨1, 1, 0⟩],
    crates := [⟨1, 0⟩], crate_downloads := [], total_downloads := 0 }

def c9s1 : Store :=
  { version_downloads := [⟨1, 1, 0, 2, 2, false⟩], versions := [⟨1, 1, 2⟩],
    crates := [⟨1, 2⟩], crate_downloads := [⟨1, 0, 2⟩], total_downloads := 2 }

def c9scheds : Nat → List Bool := fun k => if k == 0 then [true] else []

def c9nowss : Nat → Nat → Int := fun _ _ => 100

def c10s : Store :=
  { version_downloads := [⟨1, 1, 0, 3, 3, false⟩], versions := [⟨1, 1, 0⟩],
    crates := [⟨1, 0⟩], crate_downloads := [], total_downloads := 0 }

def c10row : VersionDownload := ⟨1, 1, 0, 3, 3, false⟩

@[simp] theorem step_nil : step [] = .ok [] := rfl

@[simp] theorem withStep_nil {α : Type} (k : List Bool → Except DbErr α) :
    withStep [] k = k [] := rfl

@[simp] theorem bumpVersion_vd (s : Store) (vid amt : Int) :
    (bumpVersion s vid amt).version_downloads = s.version_downloads := rfl

theorem bumpVersion_versions (s : Store) (vid amt : Int) :
    (bumpVersion s vid amt).versions = s.versions.map (fun v =>
      if v.id == vid then { v with downloads := v.downloads + amt } else v) := rfl

@[simp] theorem bumpVersion_crates (s : Store) (vid amt : Int) :
    (bumpVersion s vid amt).crates = s.crates := rfl

@[simp] theorem bumpVersion_daily (s : Store) (vid amt : Int) :
    (bumpVersion s vid amt).crate_downloads = s.crate_downloads := rfl

@[simp] theorem bumpVersion_total (s : Store) (vid amt : Int) :
    (bumpVersion s vid amt).total_downloads = s.total_downloads := rfl

@[simp] theorem bumpCrate_vd (s : Store) (cid amt : Int) :
    (bumpCrate s cid amt).version_downloads = s.version_downloads := rfl

@[simp] theorem bumpCrate_versions (s : Store) (cid amt : Int) :
    (bumpCrate s cid amt).versions = s.versions := rfl

theorem bumpCrate_crates (s : Store) (cid amt : Int) :
    (bumpCrate s cid amt).crates = s.crates.map (fun c =>
      if c.id == cid then { c with downloads := c.downloads + amt } else c) := rfl

@[simp] theorem bumpCrate_daily (s : Store) (cid amt : Int) :
    (bumpCrate s cid amt).crate_downloads = s.crate_downloads := rfl

@[simp] theorem bumpCrate_total (s : Store) (cid amt : Int) :
    (bumpCrate s cid amt).total_downloads = s.total_downloads := rfl

@[simp] theorem bumpDaily_vd (s : Store) (cid date amt : Int) :
    (bumpDaily s cid date amt).version_downloads = s.version_downloads := rfl

@[simp] theorem bumpDaily_versions (s : Store) (cid date amt : Int) :
    (bumpDaily s cid date amt).versions = s.versions := rfl

@[simp] theorem bumpDaily_crates (s : Store) (cid date amt : Int) :
    (bumpDaily s cid date amt).crates = s.crates := rfl

@[simp] theorem bumpDaily_total (s : Store) (cid date amt : Int) :
    (bumpDaily s cid date amt).total_downloads = s.total_downloads := rfl

@[simp] theorem insertDaily_vd (s : Store) (cid date amt : Int) :
    (insertDaily s cid date amt).version_downloads = s.version_downloads := rfl

@[simp] theorem insertDaily_versions (s : Store) (cid date amt : Int) :
    (insertDaily s cid date amt).versions = s.versions := rfl

@[simp] theorem insertDaily_crates (s : Store) (cid date amt : Int) :
    (insertDaily s cid date amt).crates = s.crates := rfl

@[simp] theorem insertDaily_total (s : Store) (cid date amt : Int) :
    (insertDaily s cid date amt).total_downloads = s.total_downloads := rfl

theorem markRow_vd (s : Store) (rid : Int) (flag : Bool) :
    (markRow s rid flag).version_downloads = s.version_downloads.map (fun x =>
      if x.id == rid then { x with processed := flag, counted := x.downloads } else x) := rfl

@[simp] theorem markRow_versions (s : Store) (rid : Int) (flag : Bool) :
    (markRow s rid flag).versions = s.versions := rfl

@[simp] theorem markRow_crates (s : Store) (rid : Int) (flag : Bool) :
    (markRow s rid flag).crates = s.crates := rfl

@[simp] theorem markRow_daily (s : Store) (rid : Int) (flag : Bool) :
    (markRow s rid flag).crate_downloads = s.crate_downloads := rfl

@[simp] theorem markRow_total (s : Store) (rid : Int) (flag : Bool) :
    (markRow s rid flag).total_downloads = s.total_downloads := rfl

theorem storeExt {a b : Store}
    (h1 : a.version_downloads = b.version_downloads) (h2 : a.versions = b.versions)
    (h3 : a.crates = b.crates) (h4 : a.crate_downloads = b.crate_downloads)
    (h5 : a.total_downloads = b.total_downloads) : a = b := by
  cases a
  cases b
  simp_all

theorem applyRow_vd (s : Store) (cid : Int) (r : VersionDownload) (cutoff : Int) :
    (applyRow s cid r cutoff).version_downloads = s.version_downloads.map (fun x =>
      if x.id == r.id then
        { x with processed := decide (r.date < cutoff), counted := x.downloads } else x) := by
  simp only [applyRow, markRow_vd, apply_ite (f := Store.version_downloads),
    insertDaily_vd, bumpDaily_vd, bumpCrate_vd, bumpVersion_vd, ite_self]

theorem applyRow_versions (s : Store) (cid : Int) (r : VersionDownload) (cutoff : Int) :
    (applyRow s cid r cutoff).versions = s.versions.map (fun v =>
      if v.id == r.version_id then
        { v with downloads := v.downloads + (r.downloads - r.counted) } else v) := by
  simp only [applyRow, markRow_versions, apply_ite (f := Store.versions),
    insertDaily_versions, bumpDaily_versions, bumpCrate_versions, bumpVersion_versions, ite_self]

theorem applyRow_crates (s : Store) (cid : Int) (r : VersionDownload) (cutoff : Int) :
    (applyRow s cid r cutoff).crates = s.crates.map (fun c =>
      if c.id == cid then
        { c with downloads := c.downloads + (r.downloads - r.counted) } else c) := by
  simp only [applyRow, markRow_crates, apply_ite (f := Store.crates),
    insertDaily_crates, bumpDaily_crates, bumpCrate_crates, bumpVersion_crates, ite_self]

theorem applyRow_daily (s : Store) (cid : Int) (r : VersionDownload) (cutoff : Int) :
    (applyRow s cid r cutoff).crate_downloads =
      upsertDaily s.crate_downloads cid r.date (r.downloads - r.counted) := by
  simp only [applyRow, markRow_daily, upsertDaily, dailyMatches, bumpDaily, bumpCrate_daily,
    bumpVersion_daily]
  split
  · simp only [insertDaily]
  · simp

theorem applyRow_total (s : Store) (cid : Int) (r : VersionDownload) (cutoff : Int) :
    (applyRow s cid r cutoff).total_downloads = s.total_downloads := by
  simp only [applyRow, markRow_total, apply_ite (f := Store.total_downloads),
    insertDaily_total, bumpDaily_total, bumpCrate_total, bumpVersion_total, ite_self]

theorem collectRow_skip (cutoff : Int) (acc : RowAcc) (r : VersionDownload)
    (h : r.counted = r.downloads) :
    collectRow cutoff acc r = .ok { acc with max := if r.id > acc.max then r.id else acc.max } := by
  simp [collectRow, h]

theorem collectRow_reconcile (cutoff : Int) (acc : RowAcc) (r : VersionDownload) (v : Version)
    (h : r.counted ≠ r.downloads) (hv : findVersion acc.s r.version_id = some v)
    (hsch : acc.sched = []) :
    collectRow cutoff acc r = .ok
      { s := applyRow acc.s v.crate_id r cutoff,
        max := if r.id > acc.max then r.id else acc.max,
        total := acc.total + (r.downloads - r.counted),
        sched := [] } := by
  rw [collectRow]
  rw [if_neg (by simpa using h)]
  rw [hsch]
  simp only [withStep_nil, hv, applyRow]
  split
  case _ e heq =>
    split at heq <;> simp at heq
  case _ s4 sch5 heq =>
    split at heq
    case isTrue hcond =>
      simp only [withStep_nil, Except.ok.injEq, Prod.mk.injEq] at heq
      obtain ⟨h1, h2⟩ := heq
      subst h1
      subst h2
      simp only [withStep_nil, if_pos hcond]
    case isFalse hcond =>
      simp only [Except.ok.injEq, Prod.mk.injEq] at heq
      obtain ⟨h1, h2⟩ := heq
      subst h1
      subst h2
      simp only [withStep_nil, if_neg hcond]

theorem limit_toNat : LIMIT.toNat = 10000 := rfl

theorem limit_pos : 0 < LIMIT.toNat := by decide

theorem sortById_perm (l : List VersionDownload) : (sortById l).Perm l :=
  List.perm_insertionSort leById l

theorem sortById_pairwise (l : List VersionDownload) : (sortById l).Pairwise leById :=
  List.sorted_insertionSort leById l

theorem sortById_eq_of_sorted {l : List VersionDownload} (h : l.Pairwise leById) :
    sortById l = l :=
  List.Sorted.insertionSort_eq h

theorem sortedEq {l₁ l₂ : List VersionDownload} (hp : l₁.Perm l₂)
    (h₁ : l₁.Pairwise ltById) (h₂ : l₂.Pairwise ltById) : l₁ = l₂ :=
  List.eq_of_perm_of_sorted hp h₁ h₂

theorem eq_of_same_id {l : List VersionDownload} (h : (l.map (fun r => r.id)).Nodup)
    {x y : VersionDownload} (hx : x ∈ l) (hy : y ∈ l) (hid : x.id = y.id) : x = y :=
  List.inj_on_of_nodup_map h hx hy hid

theorem pending_perm (s : Store) (max : Int) :
    (pending s max).Perm
      (s.version_downloads.filter (fun r => !r.processed && decide (max < r.id))) :=
  sortById_perm _

theorem mem_pending {s : Store} {max : Int} {r : VersionDownload} :
    r ∈ pending s max ↔
      r ∈ s.version_downloads ∧ r.processed = false ∧ max < r.id := by
  rw [(pending_perm s max).mem_iff, List.mem_filter]
  simp [Bool.not_eq_true']

theorem pending_ids_nodup {s : Store} (hN : NodupIds s) (max : Int) :
    ((pending s max).map (fun r => r.id)).Nodup := by
  have hs : (s.version_downloads.filter
      (fun r => !r.processed && decide (max < r.id))).Sublist s.version_downloads :=
    List.filter_sublist _
  have h1 : ((s.version_downloads.filter
      (fun r => !r.processed && decide (max < r.id))).map (fun r => r.id)).Nodup :=
    (hN.sublist (hs.map _))
  exact (((pending_perm s max).map (fun r => r.id)).nodup_iff).mpr h1

theorem pending_pairwise_lt {s : Store} (hN : NodupIds s) (max : Int) :
    (pending s max).Pairwise ltById := by
  have hle : (pending s max).Pairwise leById := sortById_pairwise _
  have hne : (pending s max).Pairwise (fun a b => a.id ≠ b.id) := by
    have h2 : ((pending s max).map (fun r => r.id)).Pairwise (fun a b => a ≠ b) :=
      pending_ids_nodup hN max
    exact List.pairwise_map.mp h2
  exact (hle.and hne).imp (fun h => lt_of_le_of_ne h.1 h.2)

theorem pending_length_le (s : Store) (max : Int) :
    (pending s max).length ≤ s.version_downloads.length := by
  calc (pending s max).length
      = (s.version_downloads.filter (fun r => !r.processed && decide (max < r.id))).length :=
        (pending_perm s max).length_eq
    _ ≤ s.version_downloads.length := List.length_filter_le _ _


theorem chunksGo_nil (fuel : Nat) : chunksGo fuel [] = [] := by
  cases fuel <;> rfl

theorem drop_limit_len {l : List VersionDownload} (h : l ≠ []) :
    ((l.drop LIMIT.toNat).length + 1 ≤ l.length) := by
  rw [List.length_drop, limit_toNat]
  have : 0 < l.length := List.length_pos.mpr h
  omega

theorem chunksGo_congr : ∀ (f1 f2 : Nat) (l : List VersionDownload),
    l.length ≤ f1 → l.length ≤ f2 → chunksGo f1 l = chunksGo f2 l := by
  intro f1
  induction f1 with
  | zero =>
    intro f2 l h1 _
    have : l = [] := List.length_eq_zero.mp (Nat.le_zero.mp h1)
    subst this
    rw [chunksGo_nil, chunksGo_nil]
  | succ f ih =>
    intro f2 l h1 h2
    match l, f2 with
    | [], _ => rw [chunksGo_nil, chunksGo_nil]
    | a :: t, 0 => simp at h2
    | a :: t, g + 1 =>
      show (a :: t).take LIMIT.toNat :: chunksGo f ((a :: t).drop LIMIT.toNat) =
        (a :: t).take LIMIT.toNat :: chunksGo g ((a :: t).drop LIMIT.toNat)
      have hd := drop_limit_len (l := a :: t) (by simp)
      congr 1
      apply ih
      · omega
      · omega

theorem chunksP_cons_eq {l : List VersionDownload} (h : l ≠ []) :
    chunksP l = l.take LIMIT.toNat :: chunksP (l.drop LIMIT.toNat) := by
  match l, h with
  | a :: t, _ =>
    show (a :: t).take LIMIT.toNat :: chunksGo t.length ((a :: t).drop LIMIT.toNat) = _
    have hd := drop_limit_len (l := a :: t) (by simp)
    congr 1
    apply chunksGo_congr
    · simp only [List.length_cons] at hd
      omega
    · exact le_refl _

theorem chunksP_flatten : ∀ (n : Nat) (l : List VersionDownload), l.length ≤ n →
    (chunksP l).flatten = l := by
  intro n
  induction n with
  | zero =>
    intro l h
    have : l = [] := List.length_eq_zero.mp (Nat.le_zero.mp h)
    subst this
    rfl
  | succ n ih =>
    intro l h
    match l with
    | [] => rfl
    | a :: t =>
      rw [chunksP_cons_eq (by simp)]
      rw [List.flatten_cons]
      have hd := drop_limit_len (l := a :: t) (by simp)
      rw [ih ((a :: t).drop LIMIT.toNat) (Nat.lt_succ_iff.mp (Nat.lt_of_lt_of_le hd h))]
      exact List.take_append_drop ..

theorem chunksP_flatten' (l : List VersionDownload) : (chunksP l).flatten = l :=
  chunksP_flatten l.length l (le_refl _)

theorem mem_chunksP : ∀ (n : Nat) (l : List VersionDownload), l.length ≤ n →
    ∀ c ∈ chunksP l, c ≠ [] ∧ ∀ x ∈ c, x ∈ l := by
  intro n
  induction n with
  | zero =>
    intro l h c hc
    have : l = [] := List.length_eq_zero.mp (Nat.le_zero.mp h)
    subst this
    simp [chunksP, chunksGo_nil] at hc
  | succ n ih =>
    intro l h c hc
    match l with
    | [] => simp [chunksP, chunksGo_nil] at hc
    | a :: t =>
      rw [chunksP_cons_eq (by simp)] at hc
      have hd := drop_limit_len (l := a :: t) (by simp)
      rcases List.mem_cons.mp hc with h1 | h1
      · subst h1
        constructor
        · intro hemp
          rw [List.take_eq_nil_iff] at hemp
          rcases hemp with h2 | h2
          · exact absurd h2 (by rw [limit_toNat]; omega)
          · simp at h2
        · intro x hx
          exact List.mem_of_mem_take hx
      · have := ih ((a :: t).drop LIMIT.toNat) (by omega) c h1
        exact ⟨this.1, fun x hx => List.mem_of_mem_drop (this.2 x hx)⟩

theorem chunksP_length : ∀ (n : Nat) (l : List VersionDownload), l.length ≤ n →
    (chunksP l).length = (l.length + LIMIT.toNat - 1) / LIMIT.toNat := by
  intro n
  induction n with
  | zero =>
    intro l h
    have : l = [] := List.length_eq_zero.mp (Nat.le_zero.mp h)
    subst this
    show (0 : Nat) = (0 + LIMIT.toNat - 1) / LIMIT.toNat
    rw [limit_toNat]
  | succ n ih =>
    intro l h
    match l with
    | [] =>
      show (0 : Nat) = (0 + LIMIT.toNat - 1) / LIMIT.toNat
      rw [limit_toNat]
    | a :: t =>
      rw [chunksP_cons_eq (by simp)]
      have hd := drop_limit_len (l := a :: t) (by simp)
      rw [List.length_cons]
      rw [ih ((a :: t).drop LIMIT.toNat) (Nat.lt_succ_iff.mp (Nat.lt_of_lt_of_le hd h))]
      rw [List.length_drop]
      rw [limit_toNat] at hd ⊢
      simp only [List.length_cons] at hd ⊢
      set K := t.length + 1 with hK
      have hK1 : 1 ≤ K := by omega
      have e1 : K + 10000 - 1 = (K - 1) + 10000 := by omega
      rw [e1, Nat.add_div_right _ (by omega)]
      rcases le_or_lt 10000 K with hle | hlt
      · have e2 : K - 10000 + 10000 - 1 = K - 1 := by omega
        rw [e2]
      · have e2 : K - 10000 = 0 := by omega
        rw [e2]
        rw [Nat.div_eq_of_lt (by omega)]
        rw [Nat.div_eq_of_lt (by omega)]

theorem chunkIdx_none {cs : List (List VersionDownload)} {i : Int}
    (h : ∀ c ∈ cs, ∀ r ∈ c, r.id ≠ i) : chunkIdx cs i = none := by
  induction cs with
  | nil => rfl
  | cons c cs ih =>
    rw [chunkIdx]
    rw [if_neg]
    · rw [ih (fun c hc r hr => h c (List.mem_cons_of_mem _ hc) r hr)]
      rfl
    · intro hany
      rcases List.any_eq_true.mp hany with ⟨r, hr, hid⟩
      exact h c (List.mem_cons_self _ _) r hr (by simpa using hid)

theorem chunkIdx_some_of_mem {cs : List (List VersionDownload)} {r : VersionDownload}
    (h : r ∈ cs.flatten) : ∃ j, chunkIdx cs r.id = some j := by
  induction cs with
  | nil => simp at h
  | cons c cs ih =>
    rw [chunkIdx]
    by_cases hany : c.any (fun x => x.id == r.id) = true
    · rw [if_pos hany]
      exact ⟨0, rfl⟩
    · rw [if_neg hany]
      rw [List.flatten_cons, List.mem_append] at h
      rcases h with h | h
      · exact absurd (List.any_eq_true.mpr ⟨r, h, by simp⟩) hany
      · rcases ih h with ⟨j, hj⟩
        exact ⟨j + 1, by rw [hj]; rfl⟩

theorem chunkIdx_spec : ∀ {cs : List (List VersionDownload)} {i : Int} {j : Nat},
    chunkIdx cs i = some j → ∃ c, cs.get? j = some c ∧ ∃ r ∈ c, r.id = i := by
  intro cs
  induction cs with
  | nil => intro i j h; simp [chunkIdx] at h
  | cons c cs ih =>
    intro i j h
    rw [chunkIdx] at h
    by_cases hany : c.any (fun r => r.id == i) = true
    · rw [if_pos hany] at h
      cases h
      rcases List.any_eq_true.mp hany with ⟨r, hr, hid⟩
      exact ⟨c, rfl, r, hr, by simpa using hid⟩
    · rw [if_neg hany] at h
      match hj : chunkIdx cs i with
      | none =>
        rw [hj] at h
        exact Option.noConfusion h
      | some j0 =>
        rw [hj] at h
        have h2 : j0 + 1 = j := by simpa using h
        subst h2
        rcases ih hj with ⟨c0, hc0, hr⟩
        exact ⟨c0, by simpa using hc0, hr⟩

theorem pageMax_le (page : List VersionDownload) : ∀ m : Int, m ≤ pageMax m page := by
  induction page with
  | nil => intro m; exact le_refl m
  | cons r rs ih =>
    intro m
    rw [pageMax]
    refine le_trans ?_ (ih _)
    split
    · omega
    · exact le_refl m

theorem le_pageMax_of_mem {page : List VersionDownload} {r : VersionDownload}
    (h : r ∈ page) : ∀ m : Int, r.id ≤ pageMax m page := by
  induction page with
  | nil => simp at h
  | cons a rs ih =>
    intro m
    rcases List.mem_cons.mp h with h1 | h1
    · subst h1
      rw [pageMax]
      refine le_trans ?_ (pageMax_le rs _)
      split
      · exact le_refl _
      · omega
    · exact ih h1 _

theorem pageMax_cases (page : List VersionDownload) : ∀ m : Int,
    pageMax m page = m ∨ ∃ r ∈ page, pageMax m page = r.id := by
  induction page with
  | nil => intro m; exact Or.inl rfl
  | cons a rs ih =>
    intro m
    rw [pageMax]
    rcases ih (if a.id > m then a.id else m) with h | h
    · rw [h]
      split
      · exact Or.inr ⟨a, List.mem_cons_self _ _, rfl⟩
      · exact Or.inl rfl
    · rcases h with ⟨r, hr, he⟩
      exact Or.inr ⟨r, List.mem_cons_of_mem _ hr, he⟩

theorem pageMax_mem {page : List VersionDownload} (hne : page ≠ [])
    (hpos : ∀ r ∈ page, 0 < r.id) : ∃ r ∈ page, pageMax 0 page = r.id := by
  rcases pageMax_cases page 0 with h | h
  · match page, hne with
    | a :: rs, _ =>
      have h1 := le_pageMax_of_mem (List.mem_cons_self a rs) 0
      rw [h] at h1
      exact absurd (hpos a (List.mem_cons_self _ _)) (by omega)
  · exact h

theorem filter_map_frame {l : List VersionDownload}
    {f : VersionDownload → VersionDownload} {p : VersionDownload → Bool}
    (h : ∀ x ∈ l, p (f x) = p x ∧ (p x = true → f x = x)) :
    (l.map f).filter p = l.filter p := by
  induction l with
  | nil => rfl
  | cons a t ih =>
    have ha := h a (List.mem_cons_self _ _)
    have ht := ih (fun x hx => h x (List.mem_cons_of_mem _ hx))
    rw [List.map_cons, List.filter_cons, List.filter_cons, ha.1]
    cases hpa : p a
    · simp [ht]
    · rw [ha.2 hpa]
      simp [ht]

theorem versionSig_bumpVersion (s : Store) (vid amt : Int) :
    versionSig (bumpVersion s vid amt) = versionSig s := by
  simp only [versionSig, bumpVersion, List.map_map]
  apply List.map_congr_left
  intro v _
  simp only [Function.comp]
  split <;> rfl

theorem versionSig_applyRow (s : Store) (cid : Int) (r : VersionDownload) (cutoff : Int) :
    versionSig (applyRow s cid r cutoff) = versionSig s := by
  simp only [versionSig, applyRow_versions, List.map_map]
  apply List.map_congr_left
  intro v _
  simp only [Function.comp]
  split <;> rfl

theorem find_crate_of_sig : ∀ {l1 l2 : List Version},
    l1.map (fun v => (v.id, v.crate_id)) = l2.map (fun v => (v.id, v.crate_id)) →
    ∀ vid : Int,
      (match l1.find? (fun v => v.id == vid) with
       | some v => v.crate_id
       | none => 0) =
      (match l2.find? (fun v => v.id == vid) with
       | some v => v.crate_id
       | none => 0) := by
  intro l1
  induction l1 with
  | nil =>
    intro l2 h vid
    match l2 with
    | [] => rfl
    | b :: t2 => simp at h
  | cons a t ih =>
    intro l2 h vid
    match l2 with
    | [] => simp at h
    | b :: t2 =>
      simp only [List.map_cons, List.cons.injEq, Prod.mk.injEq] at h
      obtain ⟨⟨hid, hcid⟩, ht⟩ := h
      rw [List.find?_cons, List.find?_cons]
      by_cases h1 : (a.id == vid) = true
      · rw [h1]
        have h2 : (b.id == vid) = true := by
          rw [← hid]
          exact h1
        rw [h2]
        exact hcid
      · rw [Bool.eq_false_iff.mpr h1]
        have h2 : (b.id == vid) = false := by
          rw [← hid]
          exact Bool.eq_false_iff.mpr h1
        rw [h2]
        exact ih ht vid

theorem crateOf_congr {s1 s : Store} (h : versionSig s1 = versionSig s)
    (r : VersionDownload) : crateOf s1 r = crateOf s r := by
  simp only [crateOf, findVersion]
  exact find_crate_of_sig h r.version_id

theorem cratesDelta_congr {s1 s : Store} (h : versionSig s1 = versionSig s)
    (L : List VersionDownload) (cid : Int) : cratesDelta s1 L cid = cratesDelta s L cid := by
  unfold cratesDelta
  congr 1
  apply List.map_congr_left
  intro r _
  rw [crateOf_congr h]

theorem dailyReplay_congr {s1 s : Store} (h : versionSig s1 = versionSig s)
    (L : List VersionDownload) (ds : List CrateDownload) :
    dailyReplay s1 L ds = dailyReplay s L ds := by
  unfold dailyReplay
  apply List.foldl_ext
  intro a b _
  rw [crateOf_congr h]

theorem rowDelta_zero {r : VersionDownload} (h : r.counted = r.downloads) : rowDelta r = 0 := by
  rw [rowDelta, h, sub_self]

theorem pageDelta_nil : pageDelta [] = 0 := rfl

theorem pageDelta_cons (r : VersionDownload) (rs : List VersionDownload) :
    pageDelta (r :: rs) = rowDelta r + pageDelta rs := by
  simp [pageDelta]

theorem versionsDelta_nil (vid : Int) : versionsDelta [] vid = 0 := rfl

theorem versionsDelta_cons (r : VersionDownload) (rs : List VersionDownload) (vid : Int) :
    versionsDelta (r :: rs) vid =
      (if r.version_id == vid then rowDelta r else 0) + versionsDelta rs vid := by
  simp [versionsDelta]

theorem cratesDelta_nil (s : Store) (cid : Int) : cratesDelta s [] cid = 0 := rfl

theorem cratesDelta_cons (s : Store) (r : VersionDownload) (rs : List VersionDownload)
    (cid : Int) :
    cratesDelta s (r :: rs) cid =
      (if crateOf s r == cid then rowDelta r else 0) + cratesDelta s rs cid := by
  simp [cratesDelta]

theorem dailyReplay_nil (s : Store) (ds : List CrateDownload) : dailyReplay s [] ds = ds := rfl

theorem dailyReplay_cons_skip {r : VersionDownload} (h : r.counted = r.downloads) (s : Store)
    (rs : List VersionDownload) (ds : List CrateDownload) :
    dailyReplay s (r :: rs) ds = dailyReplay s rs ds := by
  simp [dailyReplay, h]

theorem dailyReplay_cons_rec {r : VersionDownload} (h : r.counted ≠ r.downloads) (s : Store)
    (rs : List VersionDownload) (ds : List CrateDownload) :
    dailyReplay s (r :: rs) ds =
      dailyReplay s rs (upsertDaily ds (crateOf s r) r.date (rowDelta r)) := by
  simp only [dailyReplay, List.foldl_cons]
  rw [if_neg (by simpa using h)]

theorem versions_map_zero (l : List Version) (g : Version → Int) (hg : ∀ v ∈ l, g v = 0) :
    l.map (fun v => { v with downloads := v.downloads + g v }) = l := by
  have h1 : l.map (fun v => { v with downloads := v.downloads + g v }) =
      l.map (fun v => v) := by
    apply List.map_congr_left
    intro v hv
    rw [hg v hv, add_zero]
  rw [h1, List.map_id']

theorem crates_map_zero (l : List Crate) (g : Crate → Int) (hg : ∀ c ∈ l, g c = 0) :
    l.map (fun c => { c with downloads := c.downloads + g c }) = l := by
  have h1 : l.map (fun c => { c with downloads := c.downloads + g c }) =
      l.map (fun c => c) := by
    apply List.map_congr_left
    intro c hc
    rw [hg c hc, add_zero]
  rw [h1, List.map_id']

theorem findVersion_of_exists {s : Store} {vid : Int} (h : ∃ v ∈ s.versions, v.id = vid) :
    ∃ v0, findVersion s vid = some v0 ∧ v0 ∈ s.versions ∧ v0.id = vid := by
  rcases h with ⟨v, hv, hid⟩
  have h1 : (s.versions.find? (fun v => v.id == vid)).isSome :=
    List.find?_isSome.mpr ⟨v, hv, by simp [hid]⟩
  rcases Option.isSome_iff_exists.mp h1 with ⟨v0, hv0⟩
  refine ⟨v0, hv0, List.mem_of_find?_eq_some hv0, ?_⟩
  have := List.find?_some hv0
  simpa using this

theorem crateOf_of_find {s : Store} {r : VersionDownload} {v0 : Version}
    (h : findVersion s r.version_id = some v0) : crateOf s r = v0.crate_id := by
  simp [crateOf, h]

theorem ids_of_map {l : List VersionDownload} {f : VersionDownload → VersionDownload}
    (hf : ∀ x, (f x).id = x.id) :
    (l.map f).map (fun r => r.id) = l.map (fun r => r.id) := by
  rw [List.map_map]
  apply List.map_congr_left
  intro x _
  exact hf x

theorem pageMark_id (cutoff : Int) (ids : List Int) (x : VersionDownload) :
    (pageMark cutoff ids x).id = x.id := by
  rw [pageMark]
  split <;> rfl

theorem pageMark_cons_skip {s : Store} (hN : NodupIds s) {r : VersionDownload}
    (hr : r ∈ s.version_downloads) (hskip : r.counted = r.downloads) (cutoff : Int)
    (ids : List Int) :
    s.version_downloads.map (pageMark cutoff ids) =
      s.version_downloads.map (pageMark cutoff (r.id :: ids)) := by
  apply List.map_congr_left
  intro x hx
  by_cases hid : x.id = r.id
  · have hxr : x = r := eq_of_same_id hN hx hr hid
    subst hxr
    simp [pageMark, hskip]
  · simp only [pageMark, List.contains_cons]
    rw [beq_eq_false_iff_ne.mpr hid]
    simp

theorem pageMark_cons_rec {s : Store} (hN : NodupIds s) {r : VersionDownload}
    (hr : r ∈ s.version_downloads) (hrec : r.counted ≠ r.downloads) {ids : List Int}
    (hnotin : ¬ r.id ∈ ids) (cutoff : Int) :
    ∀ x ∈ s.version_downloads,
      pageMark cutoff ids
        (if x.id == r.id then
          { x with processed := decide (r.date < cutoff), counted := x.downloads } else x) =
      pageMark cutoff (r.id :: ids) x := by
  intro x hx
  by_cases hid : x.id = r.id
  · have hxr : x = r := eq_of_same_id hN hx hr hid
    subst hxr
    rw [if_pos (by simp)]
    have hcon : ids.contains x.id = false := by
      rcases h2 : ids.contains x.id with _ | _
      · rfl
      · exact absurd (List.mem_of_elem_eq_true h2) hnotin
    rw [pageMark, pageMark]
    rw [if_neg (by simp [hcon])]
    rw [if_pos]
    simp only [List.contains_cons, beq_self_eq_true, Bool.true_or, Bool.true_and]
    simpa using hrec
  · rw [if_neg (by simpa using hid)]
    simp only [pageMark, List.contains_cons]
    rw [beq_eq_false_iff_ne.mpr hid]
    simp

theorem mem_vd_applyRow {s : Store} {cid : Int} {r' : VersionDownload} {cutoff : Int}
    {x : VersionDownload} (hx : x ∈ s.version_downloads) (hne : x.id ≠ r'.id) :
    x ∈ (applyRow s cid r' cutoff).version_downloads := by
  rw [applyRow_vd]
  refine List.mem_map.mpr ⟨x, hx, ?_⟩
  simp [hne]

theorem nodupIds_applyRow {s : Store} (hN : NodupIds s) (cid : Int) (r : VersionDownload)
    (cutoff : Int) : NodupIds (applyRow s cid r cutoff) := by
  unfold NodupIds
  rw [applyRow_vd]
  rw [ids_of_map]
  · exact hN
  · intro x
    split <;> rfl

theorem exists_version_applyRow {s : Store} {cid : Int} {r0 : VersionDownload} {cutoff : Int}
    {vid : Int} (h : ∃ v ∈ s.versions, v.id = vid) :
    ∃ v ∈ (applyRow s cid r0 cutoff).versions, v.id = vid := by
  rcases h with ⟨v, hv, hid⟩
  rw [applyRow_versions]
  refine ⟨if v.id == r0.version_id then
    { v with downloads := v.downloads + (r0.downloads - r0.counted) } else v,
    List.mem_map_of_mem _ hv, ?_⟩
  split <;> simpa using hid

theorem collectRows_ok (cutoff : Int) :
    ∀ (page : List VersionDownload) (s : Store) (m0 t0 : Int),
    NodupIds s →
    (∀ r ∈ page, r ∈ s.version_downloads) →
    ((page.map (fun r => r.id)).Nodup) →
    (∀ r ∈ page, r.counted ≠ r.downloads → ∃ v ∈ s.versions, v.id = r.version_id) →
    ∃ s2 : Store,
      collectRows cutoff { s := s, max := m0, total := t0, sched := [] } page =
        .ok { s := s2, max := pageMax m0 page, total := t0 + pageDelta page, sched := [] } ∧
      s2.version_downloads =
        s.version_downloads.map (pageMark cutoff (page.map (fun r => r.id))) ∧
      s2.versions = s.versions.map (fun v =>
        { v with downloads := v.downloads + versionsDelta page v.id }) ∧
      s2.crates = s.crates.map (fun c =>
        { c with downloads := c.downloads + cratesDelta s page c.id }) ∧
      s2.crate_downloads = dailyReplay s page s.crate_downloads ∧
      s2.total_downloads = s.total_downloads := by
  intro page
  induction page with
  | nil =>
    intro s m0 t0 hN _ _ _
    refine ⟨s, ?_, ?_, ?_, ?_, ?_, rfl⟩
    · show Except.ok _ = _
      rw [pageMax, pageDelta_nil, add_zero]
    · have h1 : s.version_downloads.map
            (pageMark cutoff (([] : List VersionDownload).map (fun r => r.id))) =
          s.version_downloads.map (fun x => x) := List.map_congr_left (fun x _ => rfl)
      rw [h1, List.map_id']
    · exact (versions_map_zero s.versions (fun v => versionsDelta [] v.id) (fun v _ => rfl)).symm
    · exact (crates_map_zero s.crates (fun c => cratesDelta s [] c.id) (fun c _ => rfl)).symm
    · rw [dailyReplay_nil]
  | cons r rs ih =>
    intro s m0 t0 hN hpage hids hL3
    have hrS : r ∈ s.version_downloads := hpage r (List.mem_cons_self _ _)
    have hrsS : ∀ x ∈ rs, x ∈ s.version_downloads :=
      fun x hx => hpage x (List.mem_cons_of_mem _ hx)
    have hidsTail : (rs.map (fun r => r.id)).Nodup := by
      rw [List.map_cons] at hids
      exact hids.of_cons
    have hnotin : ¬ r.id ∈ rs.map (fun r => r.id) := by
      rw [List.map_cons] at hids
      exact (List.nodup_cons.mp hids).1
    by_cases hskip : r.counted = r.downloads
    · rcases ih s (if r.id > m0 then r.id else m0) t0 hN hrsS hidsTail
        (fun x hx h2 => hL3 x (List.mem_cons_of_mem _ hx) h2) with
        ⟨s2, heq, hvd, hver, hcr, hdaily, htot⟩
      refine ⟨s2, ?_, ?_, ?_, ?_, ?_, htot⟩
      · rw [collectRows]
        rw [collectRow_skip cutoff _ r hskip]
        show collectRows cutoff
          { s := s, max := if r.id > m0 then r.id else m0, total := t0, sched := [] } rs = _
        rw [heq]
        rw [pageMax]
        rw [pageDelta_cons, rowDelta_zero hskip, zero_add]
      · rw [hvd, List.map_cons]
        exact pageMark_cons_skip hN hrS hskip cutoff (rs.map (fun r => r.id))
      · rw [hver]
        apply List.map_congr_left
        intro v _
        rw [versionsDelta_cons, rowDelta_zero hskip, ite_self, zero_add]
      · rw [hcr]
        apply List.map_congr_left
        intro c _
        rw [cratesDelta_cons, rowDelta_zero hskip, ite_self, zero_add]
      · rw [hdaily, dailyReplay_cons_skip hskip]
    · rcases findVersion_of_exists (hL3 r (List.mem_cons_self _ _) hskip) with
        ⟨v0, hfind, hv0mem, hv0id⟩
      set s1 := applyRow s v0.crate_id r cutoff with hs1
      have hsig : versionSig s1 = versionSig s := versionSig_applyRow ..
      have hN1 : NodupIds s1 := nodupIds_applyRow hN ..
      have hrsS1 : ∀ x ∈ rs, x ∈ s1.version_downloads := by
        intro x hx
        apply mem_vd_applyRow (hrsS x hx)
        intro hxe
        exact hnotin (hxe ▸ List.mem_map_of_mem _ hx)
      have hL31 : ∀ x ∈ rs, x.counted ≠ x.downloads →
          ∃ v ∈ s1.versions, v.id = x.version_id := by
        intro x hx h2
        exact exists_version_applyRow (hL3 x (List.mem_cons_of_mem _ hx) h2)
      rcases ih s1 (if r.id > m0 then r.id else m0) (t0 + (r.downloads - r.counted))
        hN1 hrsS1 hidsTail hL31 with ⟨s2, heq, hvd, hver, hcr, hdaily, htot⟩
      refine ⟨s2, ?_, ?_, ?_, ?_, ?_, ?_⟩
      · rw [collectRows]
        rw [collectRow_reconcile cutoff _ r v0 hskip hfind rfl]
        show collectRows cutoff
          { s := applyRow s v0.crate_id r cutoff, max := if r.id > m0 then r.id else m0,
            total := t0 + (r.downloads - r.counted), sched := [] } rs = _
        rw [← hs1, heq]
        rw [pageMax]
        rw [pageDelta_cons]
        rw [add_assoc]
        rfl
      · rw [hvd]
        rw [hs1, applyRow_vd, List.map_map]
        rw [List.map_cons]
        apply List.map_congr_left
        intro x hx
        exact pageMark_cons_rec hN hrS hskip hnotin cutoff x hx
      · rw [hver, hs1, applyRow_versions, List.map_map]
        apply List.map_congr_left
        intro v _
        simp only [Function.comp]
        rw [versionsDelta_cons]
        by_cases hv : v.id = r.version_id
        · rw [if_pos (by simpa using hv)]
          rw [if_pos (by simpa using hv.symm)]
          simp [rowDelta, add_assoc]
        · rw [if_neg (by simpa using hv)]
          rw [if_neg (by simpa using fun h => hv h.symm)]
          rw [zero_add]
      · rw [hcr]
        simp only [cratesDelta_congr hsig]
        rw [hs1, applyRow_crates, List.map_map]
        apply List.map_congr_left
        intro c _
        simp only [Function.comp]
        rw [cratesDelta_cons]
        have hcof : crateOf s r = v0.crate_id := crateOf_of_find hfind
        by_cases hc : c.id = v0.crate_id
        · rw [if_pos (by simpa using hc)]
          rw [if_pos (by rw [hcof]; simpa using hc.symm)]
          simp [rowDelta, add_assoc]
        · rw [if_neg (by simpa using hc)]
          rw [if_neg (by rw [hcof]; simpa using fun h => hc h.symm)]
          rw [zero_add]
      · rw [hdaily, dailyReplay_congr hsig]
        rw [dailyReplay_cons_rec hskip]
        rw [hs1, applyRow_daily]
        rw [crateOf_of_find hfind]
        rfl
      · rw [htot, hs1, applyRow_total]

theorem collect_empty (s : Store) (now : Int) (sched : List Bool) :
    collect s [] now sched = .ok (s, none, sched) := rfl

theorem collect_ok {s : Store} {page : List VersionDownload} (hne : page ≠ [])
    (hN : NodupIds s)
    (hpage : ∀ r ∈ page, r ∈ s.version_downloads)
    (hids : (page.map (fun r => r.id)).Nodup)
    (hL3 : ∀ r ∈ page, r.counted ≠ r.downloads → ∃ v ∈ s.versions, v.id = r.version_id)
    (now : Int) :
    ∃ s3 : Store,
      collect s page now [] = .ok (s3, some (pageMax 0 page), []) ∧
      s3.version_downloads = s.version_downloads.map
        (pageMark (now - secondsPerDay) (page.map (fun r => r.id))) ∧
      s3.versions = s.versions.map (fun v =>
        { v with downloads := v.downloads + versionsDelta page v.id }) ∧
      s3.crates = s.crates.map (fun c =>
        { c with downloads := c.downloads + cratesDelta s page c.id }) ∧
      s3.crate_downloads = dailyReplay s page s.crate_downloads ∧
      s3.total_downloads = s.total_downloads + pageDelta page := by
  rcases collectRows_ok (now - secondsPerDay) page s 0 0 hN hpage hids hL3 with
    ⟨s2, heq, hvd, hver, hcr, hdaily, htot⟩
  refine ⟨{ s2 with total_downloads := s.total_downloads + pageDelta page },
    ?_, hvd, hver, hcr, hdaily, rfl⟩
  simp only [collect]
  rw [if_pos hids]
  rw [if_neg (fun h => hne (List.length_eq_zero.mp (by simpa using h)))]
  rw [heq]
  show (withStep [] fun sch2 =>
    Except.ok ({ s2 with total_downloads := s2.total_downloads + (0 + pageDelta page) },
      some (pageMax 0 page), sch2)) = _
  simp only [withStep_nil]
  rw [htot, zero_add]

theorem pairwise_lt_of_le_nodup {l : List VersionDownload} (hle : l.Pairwise leById)
    (hnd : (l.map (fun r => r.id)).Nodup) : l.Pairwise ltById := by
  have hne : l.Pairwise (fun a b => a.id ≠ b.id) := List.pairwise_map.mp hnd
  exact (hle.and hne).imp (fun h => lt_of_le_of_ne h.1 h.2)

theorem finalizeRow_skip {x : VersionDownload} (h : x.counted = x.downloads)
    (cs : List (List VersionDownload)) (k0 : Nat) (nows : Nat → Int) :
    finalizeRow cs k0 nows x = x := by
  rw [finalizeRow]
  cases hc : chunkIdx cs x.id
  · rfl
  · simp [h]

theorem nodupIds_of_vd_map {s s3 : Store} (hN : NodupIds s)
    {f : VersionDownload → VersionDownload} (hf : ∀ x, (f x).id = x.id)
    (h : s3.version_downloads = s.version_downloads.map f) : NodupIds s3 := by
  unfold NodupIds
  rw [h, ids_of_map hf]
  exact hN

theorem pageMark_cases (cutoff : Int) (ids : List Int) (x : VersionDownload) :
    pageMark cutoff ids x = x ∨
      (ids.contains x.id = true ∧ x.counted ≠ x.downloads ∧
        pageMark cutoff ids x =
          { x with processed := decide (x.date < cutoff), counted := x.downloads }) := by
  rw [pageMark]
  split
  case isTrue hcond =>
    rcases (Bool.and_eq_true _ _).mp hcond with ⟨h1, h2⟩
    exact Or.inr ⟨h1, by simpa using h2, rfl⟩
  case isFalse => exact Or.inl rfl

theorem lookupsOk_preserved {s s3 : Store} (hL : LookupsOk s) {cutoff : Int} {ids : List Int}
    (hvd : s3.version_downloads = s.version_downloads.map (pageMark cutoff ids))
    {g : Version → Version} (hver : s3.versions = s.versions.map g)
    (hg : ∀ v, (g v).id = v.id) : LookupsOk s3 := by
  intro y hy hproc hcnt
  rw [hvd] at hy
  rcases List.mem_map.mp hy with ⟨x, hx, hxy⟩
  rcases pageMark_cases cutoff ids x with hcase | ⟨_, _, hcase⟩
  · rw [hcase] at hxy
    subst hxy
    rcases hL x hx hproc hcnt with ⟨v, hv, hvid⟩
    refine ⟨g v, ?_, ?_⟩
    · rw [hver]
      exact List.mem_map_of_mem g hv
    · rw [hg v]
      exact hvid
  · rw [hcase] at hxy
    subst hxy
    exact absurd rfl hcnt

theorem versionSig_addMap {s3 s : Store} (g : Version → Int)
    (h : s3.versions = s.versions.map (fun v => { v with downloads := v.downloads + g v })) :
    versionSig s3 = versionSig s := by
  rw [versionSig, versionSig, h, List.map_map]
  apply List.map_congr_left
  intro v _
  rfl

theorem versionsDelta_append (l1 l2 : List VersionDownload) (vid : Int) :
    versionsDelta (l1 ++ l2) vid = versionsDelta l1 vid + versionsDelta l2 vid := by
  simp [versionsDelta]

theorem cratesDelta_append (s : Store) (l1 l2 : List VersionDownload) (cid : Int) :
    cratesDelta s (l1 ++ l2) cid = cratesDelta s l1 cid + cratesDelta s l2 cid := by
  simp [cratesDelta]

theorem pageDelta_append (l1 l2 : List VersionDownload) :
    pageDelta (l1 ++ l2) = pageDelta l1 + pageDelta l2 := by
  simp [pageDelta]

theorem dailyReplay_append (s : Store) (l1 l2 : List VersionDownload)
    (ds : List CrateDownload) :
    dailyReplay s (l1 ++ l2) ds = dailyReplay s l2 (dailyReplay s l1 ds) := by
  simp [dailyReplay, List.foldl_append]

theorem pending_drop {s s3 : Store} (hN : NodupIds s) {max : Int} (hmax : 0 ≤ max)
    (hLne : pending s max ≠ []) {cutoff : Int}
    (hvd3 : s3.version_downloads = s.version_downloads.map
      (pageMark cutoff (((pending s max).take LIMIT.toNat).map (fun r => r.id)))) :
    pending s3 (pageMax 0 ((pending s max).take LIMIT.toNat)) =
      (pending s max).drop LIMIT.toNat := by
  have hLpos : ∀ r ∈ pending s max, max < r.id := fun r hr => (mem_pending.mp hr).2.2
  have hLlt : (pending s max).Pairwise ltById := pending_pairwise_lt hN max
  have hLnd : ((pending s max).map (fun r => r.id)).Nodup := pending_ids_nodup hN max
  have hpagene : (pending s max).take LIMIT.toNat ≠ [] := by
    intro h
    rcases List.take_eq_nil_iff.mp h with h2 | h2
    · exact absurd h2 (by rw [limit_toNat]; omega)
    · exact hLne h2
  have hpageL : ∀ r ∈ (pending s max).take LIMIT.toNat, r ∈ pending s max :=
    fun r hr => List.mem_of_mem_take hr
  have hrestL : ∀ r ∈ (pending s max).drop LIMIT.toNat, r ∈ pending s max :=
    fun r hr => List.mem_of_mem_drop hr
  have hcross : ∀ x ∈ (pending s max).take LIMIT.toNat,
      ∀ y ∈ (pending s max).drop LIMIT.toNat, x.id < y.id := by
    have h2 : ((pending s max).take LIMIT.toNat ++
        (pending s max).drop LIMIT.toNat).Pairwise ltById := by
      rw [List.take_append_drop]
      exact hLlt
    exact fun x hx y hy => (List.pairwise_append.mp h2).2.2 x hx y hy
  rcases pageMax_mem hpagene
      (fun r hr => lt_of_le_of_lt hmax (hLpos r (hpageL r hr))) with ⟨rm, hrmpage, hmeq⟩
  have hpageLe : ∀ r ∈ (pending s max).take LIMIT.toNat,
      r.id ≤ pageMax 0 ((pending s max).take LIMIT.toNat) :=
    fun r hr => le_pageMax_of_mem hr 0
  have hrestGt : ∀ y ∈ (pending s max).drop LIMIT.toNat,
      pageMax 0 ((pending s max).take LIMIT.toNat) < y.id := by
    intro y hy
    rw [hmeq]
    exact hcross rm hrmpage y hy
  have hmaxm : max < pageMax 0 ((pending s max).take LIMIT.toNat) := by
    rw [hmeq]
    exact hLpos rm (hpageL rm hrmpage)
  have hframe : s3.version_downloads.filter (fun x => !x.processed &&
        decide (pageMax 0 ((pending s max).take LIMIT.toNat) < x.id)) =
      s.version_downloads.filter (fun x => !x.processed &&
        decide (pageMax 0 ((pending s max).take LIMIT.toNat) < x.id)) := by
    rw [hvd3]
    apply filter_map_frame
    intro x _
    constructor
    · rcases pageMark_cases cutoff (((pending s max).take LIMIT.toNat).map (fun r => r.id)) x
        with hc | ⟨hin, _, hc⟩
      · rw [hc]
      · have hxin : x.id ≤ pageMax 0 ((pending s max).take LIMIT.toNat) := by
          rcases List.mem_map.mp (List.mem_of_elem_eq_true hin) with ⟨r, hrp, hrid⟩
          rw [← hrid]
          exact hpageLe r hrp
        have hdec : decide (pageMax 0 ((pending s max).take LIMIT.toNat) < x.id) = false := by
          simp
          omega
        rw [hc]
        show (!(decide (x.date < cutoff)) && _) = _
        rw [hdec, Bool.and_false, Bool.and_false]
    · intro hpx
      rcases pageMark_cases cutoff (((pending s max).take LIMIT.toNat).map (fun r => r.id)) x
        with hc | ⟨hin, _, hc⟩
      · exact hc
      · exfalso
        rcases (Bool.and_eq_true _ _).mp hpx with ⟨_, hdec⟩
        have h3 : pageMax 0 ((pending s max).take LIMIT.toNat) < x.id :=
          of_decide_eq_true hdec
        rcases List.mem_map.mp (List.mem_of_elem_eq_true hin) with ⟨r, hrp, hrid⟩
        have h4 := hpageLe r hrp
        omega
  have hcomp : s.version_downloads.filter (fun x => !x.processed &&
        decide (pageMax 0 ((pending s max).take LIMIT.toNat) < x.id)) =
      (s.version_downloads.filter (fun x => !x.processed && decide (max < x.id))).filter
        (fun x => decide (pageMax 0 ((pending s max).take LIMIT.toNat) < x.id)) := by
    rw [List.filter_filter]
    apply List.filter_congr
    intro x _
    by_cases h1 : pageMax 0 ((pending s max).take LIMIT.toNat) < x.id
    · have h2 : max < x.id := lt_trans hmaxm h1
      simp [h1, h2]
    · simp [h1]
  have hLgen : ∀ M : Int, (∀ x ∈ (pending s max).take LIMIT.toNat, ¬ (M < x.id)) →
      (∀ y ∈ (pending s max).drop LIMIT.toNat, M < y.id) →
      (pending s max).filter (fun x => decide (M < x.id)) =
        (pending s max).drop LIMIT.toNat := by
    intro M hA hB
    conv_lhs => rw [← List.take_append_drop LIMIT.toNat (pending s max)]
    rw [List.filter_append]
    rw [List.filter_eq_nil_iff.mpr (fun x hx => by simpa using hA x hx)]
    rw [List.filter_eq_self.mpr (fun x hx => by simpa using hB x hx), List.nil_append]
  have hLfilter : (pending s max).filter
      (fun x => decide (pageMax 0 ((pending s max).take LIMIT.toNat) < x.id)) =
      (pending s max).drop LIMIT.toNat :=
    hLgen _ (fun x hx => not_lt.mpr (hpageLe x hx)) hrestGt
  have hperm : (sortById (s3.version_downloads.filter (fun x => !x.processed &&
      decide (pageMax 0 ((pending s max).take LIMIT.toNat) < x.id)))).Perm
      ((pending s max).drop LIMIT.toNat) := by
    refine (sortById_perm _).trans ?_
    rw [hframe, hcomp]
    refine (List.Perm.filter _ (pending_perm s max).symm).trans ?_
    rw [hLfilter]
  have hrestlt : ((pending s max).drop LIMIT.toNat).Pairwise ltById :=
    hLlt.sublist (List.drop_sublist ..)
  have hrestnd : (((pending s max).drop LIMIT.toNat).map (fun r => r.id)).Nodup := by
    have h5 : ((pending s max).drop LIMIT.toNat).map (fun r => r.id) =
        ((pending s max).map (fun r => r.id)).drop LIMIT.toNat := by
      simp [List.map_drop]
    rw [h5]
    exact hLnd.sublist (List.drop_sublist ..)
  have hXnd : ((sortById (s3.version_downloads.filter (fun x => !x.processed &&
      decide (pageMax 0 ((pending s max).take LIMIT.toNat) < x.id)))).map
        (fun r => r.id)).Nodup :=
    ((hperm.map (fun r => r.id)).nodup_iff).mpr hrestnd
  show sortById _ = _
  exact sortedEq hperm
    (pairwise_lt_of_le_nodup (sortById_pairwise _) hXnd) hrestlt

theorem finalizeRow_none (x : VersionDownload) {cs : List (List VersionDownload)}
    (h : chunkIdx cs x.id = none) (k0 : Nat) (nows : Nat → Int) :
    finalizeRow cs k0 nows x = x := by
  rw [finalizeRow, h]

theorem finalizeRow_some (x : VersionDownload) {cs : List (List VersionDownload)} {j : Nat}
    (h : chunkIdx cs x.id = some j) (k0 : Nat) (nows : Nat → Int) :
    finalizeRow cs k0 nows x =
      if x.counted == x.downloads then x
      else { x with processed := decide (x.date < nows (k0 + j) - secondsPerDay),
                    counted := x.downloads } := by
  rw [finalizeRow, h]

theorem finalizeRow_cons_found {page : List VersionDownload}
    {cs : List (List VersionDownload)} {x : VersionDownload}
    (hany : page.any (fun q => q.id == x.id) = true) (k0 : Nat) (nows : Nat → Int) :
    finalizeRow (page :: cs) k0 nows x =
      if x.counted == x.downloads then x
      else { x with processed := decide (x.date < nows k0 - secondsPerDay),
                    counted := x.downloads } := by
  rw [finalizeRow]
  simp only [chunkIdx]
  rw [if_pos hany]
  rfl

theorem finalizeRow_cons_notfound {page : List VersionDownload}
    {cs : List (List VersionDownload)} {x : VersionDownload}
    (hany : page.any (fun q => q.id == x.id) = false) (k0 : Nat) (nows : Nat → Int) :
    finalizeRow (page :: cs) k0 nows x =
      (match chunkIdx cs x.id with
       | none => x
       | some j =>
         if x.counted == x.downloads then x
         else { x with processed := decide (x.date < nows (k0 + (j + 1)) - secondsPerDay),
                       counted := x.downloads }) := by
  rw [finalizeRow]
  simp only [chunkIdx]
  rw [if_neg (by simp [hany])]
  cases hc : chunkIdx cs x.id
  · rfl
  · rfl

theorem updateGo_master (nows : Nat → Int) :
    ∀ (fuel : Nat) (s : Store) (max : Int) (k : Nat),
    NodupIds s → LookupsOk s → 0 ≤ max → (pending s max).length < fuel →
    ∃ sf : Store,
      updateGo nows fuel s max k [] =
        .ok (sf, chunksP (pending s max) ++ [[]], []) ∧
      sf.version_downloads = s.version_downloads.map
        (finalizeRow (chunksP (pending s max)) k nows) ∧
      sf.versions = s.versions.map (fun v =>
        { v with downloads := v.downloads + versionsDelta (pending s max) v.id }) ∧
      sf.crates = s.crates.map (fun c =>
        { c with downloads := c.downloads + cratesDelta s (pending s max) c.id }) ∧
      sf.crate_downloads = dailyReplay s (pending s max) s.crate_downloads ∧
      sf.total_downloads = s.total_downloads + pageDelta (pending s max) := by
  intro fuel
  induction fuel with
  | zero =>
    intro s max k _ _ _ hfuel
    exact absurd hfuel (Nat.not_lt_zero _)
  | succ fuel ih =>
    intro s max k hN hL hmax hfuel
    by_cases hLe : pending s max = []
    · refine ⟨s, ?_, ?_, ?_, ?_, ?_, ?_⟩
      · simp only [updateGo, withStep_nil, pageQuery]
        rw [hLe]
        rw [List.take_nil, collect_empty, chunksP]
        rfl
      · rw [hLe]
        have h1 : s.version_downloads.map (finalizeRow (chunksP []) k nows) =
            s.version_downloads.map (fun x => x) := List.map_congr_left (fun x _ => rfl)
        rw [h1, List.map_id']
      · rw [hLe]
        exact (versions_map_zero s.versions (fun v => versionsDelta [] v.id)
          (fun v _ => rfl)).symm
      · rw [hLe]
        exact (crates_map_zero s.crates (fun c => cratesDelta s [] c.id)
          (fun c _ => rfl)).symm
      · rw [hLe, dailyReplay_nil]
      · rw [hLe, pageDelta_nil, add_zero]
    · have hLpos : ∀ r ∈ pending s max, max < r.id := fun r hr => (mem_pending.mp hr).2.2
      have hLS : ∀ r ∈ pending s max, r ∈ s.version_downloads :=
        fun r hr => (mem_pending.mp hr).1
      have hLproc : ∀ r ∈ pending s max, r.processed = false :=
        fun r hr => (mem_pending.mp hr).2.1
      have hLlt : (pending s max).Pairwise ltById := pending_pairwise_lt hN max
      have hLnd : ((pending s max).map (fun r => r.id)).Nodup := pending_ids_nodup hN max
      have hpagene : (pending s max).take LIMIT.toNat ≠ [] := by
        intro h
        rcases List.take_eq_nil_iff.mp h with h2 | h2
        · exact absurd h2 (by rw [limit_toNat]; omega)
        · exact hLe h2
      have hpageL : ∀ r ∈ (pending s max).take LIMIT.toNat, r ∈ pending s max :=
        fun r hr => List.mem_of_mem_take hr
      have hpageS : ∀ r ∈ (pending s max).take LIMIT.toNat, r ∈ s.version_downloads :=
        fun r hr => hLS r (hpageL r hr)
      have hpids : (((pending s max).take LIMIT.toNat).map (fun r => r.id)).Nodup := by
        have h5 : ((pending s max).take LIMIT.toNat).map (fun r => r.id) =
            ((pending s max).map (fun r => r.id)).take LIMIT.toNat := by
          simp [List.map_take]
        rw [h5]
        exact hLnd.sublist (List.take_sublist ..)
      have hL3page : ∀ r ∈ (pending s max).take LIMIT.toNat,
          r.counted ≠ r.downloads → ∃ v ∈ s.versions, v.id = r.version_id :=
        fun r hr h2 => hL r (hpageS r hr) (hLproc r (hpageL r hr)) h2
      rcases collect_ok hpagene hN hpageS hpids hL3page (nows k) with
        ⟨s3, hcollect, hvd3, hver3, hcr3, hdaily3, htot3⟩
      have hsig3 : versionSig s3 = versionSig s := versionSig_addMap _ hver3
      have hN3 : NodupIds s3 := nodupIds_of_vd_map hN (fun x => pageMark_id ..) hvd3
      have hL3' : LookupsOk s3 := lookupsOk_preserved hL hvd3 hver3 (fun v => rfl)
      have hcross : ∀ x ∈ (pending s max).take LIMIT.toNat,
          ∀ y ∈ (pending s max).drop LIMIT.toNat, x.id < y.id := by
        have h2 : ((pending s max).take LIMIT.toNat ++
            (pending s max).drop LIMIT.toNat).Pairwise ltById := by
          rw [List.take_append_drop]
          exact hLlt
        exact fun x hx y hy => (List.pairwise_append.mp h2).2.2 x hx y hy
      rcases pageMax_mem hpagene
          (fun r hr => lt_of_le_of_lt hmax (hLpos r (hpageL r hr))) with ⟨rm, hrmpage, hmeq⟩
      have hm0 : 0 ≤ pageMax 0 ((pending s max).take LIMIT.toNat) := by
        have := hLpos rm (hpageL rm hrmpage)
        omega
      have hdrop : pending s3 (pageMax 0 ((pending s max).take LIMIT.toNat)) =
          (pending s max).drop LIMIT.toNat :=
        pending_drop hN hmax hLe hvd3
      have hfuel' : (pending s3 (pageMax 0 ((pending s max).take LIMIT.toNat))).length
          < fuel := by
        rw [hdrop]
        have h6 : ((pending s max).drop LIMIT.toNat).length =
            (pending s max).length - LIMIT.toNat := List.length_drop ..
        have h7 : 0 < (pending s max).length := List.length_pos.mpr hLe
        have h8 : LIMIT.toNat = 10000 := rfl
        omega
      rcases ih s3 (pageMax 0 ((pending s max).take LIMIT.toNat)) (k + 1)
        hN3 hL3' hm0 hfuel' with ⟨sf, hrec, hvdF, hverF, hcrF, hdailyF, htotF⟩
      rw [hdrop] at hrec hvdF hverF hcrF hdailyF htotF
      have hdisj : ∀ c ∈ chunksP ((pending s max).drop LIMIT.toNat), ∀ q ∈ c,
          ∀ r ∈ (pending s max).take LIMIT.toNat, q.id ≠ r.id := by
        intro c hc q hq r hr
        have h1 : q ∈ (pending s max).drop LIMIT.toNat :=
          (mem_chunksP _ _ (le_refl _) c hc).2 q hq
        have := hcross r hr q h1
        omega
      have hpoint : ∀ x ∈ s.version_downloads,
          finalizeRow (chunksP ((pending s max).drop LIMIT.toNat)) (k + 1) nows
            (pageMark (nows k - secondsPerDay)
              (((pending s max).take LIMIT.toNat).map (fun r => r.id)) x) =
          finalizeRow ((pending s max).take LIMIT.toNat ::
            chunksP ((pending s max).drop LIMIT.toNat)) k nows x := by
        intro x hx
        by_cases hin : ∃ r ∈ (pending s max).take LIMIT.toNat, r.id = x.id
        · rcases hin with ⟨r, hrpage, hrid⟩
          obtain rfl : r = x := eq_of_same_id hN (hpageS r hrpage) hx hrid
          have hany : ((pending s max).take LIMIT.toNat).any
              (fun q => q.id == r.id) = true :=
            List.any_eq_true.mpr ⟨r, hrpage, by simp⟩
          by_cases hsk : r.counted = r.downloads
          · have hpm : pageMark (nows k - secondsPerDay)
                (((pending s max).take LIMIT.toNat).map (fun q => q.id)) r = r := by
              rw [pageMark, if_neg]
              simp [hsk]
            rw [hpm, finalizeRow_skip hsk, finalizeRow_cons_found hany]
            rw [if_pos (by simpa using hsk)]
          · have hcon : (((pending s max).take LIMIT.toNat).map (fun q => q.id)).contains
                r.id = true :=
              List.elem_eq_true_of_mem (List.mem_map_of_mem _ hrpage)
            have hpm : pageMark (nows k - secondsPerDay)
                (((pending s max).take LIMIT.toNat).map (fun q => q.id)) r =
                { r with processed := decide (r.date < nows k - secondsPerDay),
                         counted := r.downloads } := by
              rw [pageMark, if_pos]
              rw [hcon]
              simpa using hsk
            rw [hpm]
            have hnone : chunkIdx (chunksP ((pending s max).drop LIMIT.toNat)) r.id = none :=
              chunkIdx_none (fun c hc q hq => hdisj c hc q hq r hrpage)
            rw [finalizeRow_none
              { r with processed := decide (r.date < nows k - secondsPerDay),
                       counted := r.downloads } hnone]
            rw [finalizeRow_cons_found hany]
            rw [if_neg (by simpa using hsk)]
        · have hany : ((pending s max).take LIMIT.toNat).any
              (fun q => q.id == x.id) = false := by
            rcases h2 : ((pending s max).take LIMIT.toNat).any (fun q => q.id == x.id) with
              _ | _
            · rfl
            · exfalso
              rcases List.any_eq_true.mp h2 with ⟨q, hq, hqid⟩
              exact hin ⟨q, hq, by simpa using hqid⟩
          have hcon : (((pending s max).take LIMIT.toNat).map (fun q => q.id)).contains
              x.id = false := by
            rcases h2 : (((pending s max).take LIMIT.toNat).map
                (fun q => q.id)).contains x.id with _ | _
            · first
              | rfl
              | exact h2
            · exfalso
              rcases List.mem_map.mp (List.mem_of_elem_eq_true h2) with ⟨q, hq, hqid⟩
              exact hin ⟨q, hq, hqid⟩
          have hpm : pageMark (nows k - secondsPerDay)
              (((pending s max).take LIMIT.toNat).map (fun q => q.id)) x = x := by
            rw [pageMark, if_neg]
            rw [hcon]
            simp
          rw [hpm, finalizeRow_cons_notfound hany]
          cases hc : chunkIdx (chunksP ((pending s max).drop LIMIT.toNat)) x.id with
          | none => exact finalizeRow_none x hc (k + 1) nows
          | some j =>
            have he : k + 1 + j = k + (j + 1) := by omega
            rw [finalizeRow_some x hc (k + 1) nows, he]
      refine ⟨sf, ?_, ?_, ?_, ?_, ?_, ?_⟩
      · simp only [updateGo, withStep_nil, pageQuery]
        rw [hcollect]
        show ((match updateGo nows fuel s3
            (pageMax 0 ((pending s max).take LIMIT.toNat)) (k + 1) [] with
          | Except.error e => Except.error e
          | Except.ok (s', pages, sched) =>
            Except.ok (s', (pending s max).take LIMIT.toNat :: pages, sched) :
          Except DbErr (Store × List (List VersionDownload) × List Bool))) = _
        rw [hrec]
        rw [chunksP_cons_eq hLe]
        rfl
      · rw [hvdF, hvd3, List.map_map, chunksP_cons_eq hLe]
        apply List.map_congr_left
        intro x hx
        exact hpoint x hx
      · rw [hverF, hver3, List.map_map]
        conv_rhs => rw [← List.take_append_drop LIMIT.toNat (pending s max)]
        apply List.map_congr_left
        intro v _
        simp only [Function.comp]
        rw [versionsDelta_append]
        simp [add_assoc]
      · rw [hcrF]
        simp only [cratesDelta_congr hsig3]
        rw [hcr3, List.map_map]
        conv_rhs => rw [← List.take_append_drop LIMIT.toNat (pending s max)]
        apply List.map_congr_left
        intro c _
        simp only [Function.comp]
        rw [cratesDelta_append]
        simp [add_assoc]
      · rw [hdailyF, dailyReplay_congr hsig3, hdaily3]
        conv_rhs => rw [← List.take_append_drop LIMIT.toNat (pending s max)]
        rw [dailyReplay_append]
      · rw [htotF, htot3]
        conv_rhs => rw [← List.take_append_drop LIMIT.toNat (pending s max)]
        rw [pageDelta_append, add_assoc]

theorem update_master (s : Store) (nows : Nat → Int) (hN : NodupIds s) (hL : LookupsOk s) :
    ∃ sf : Store,
      update s nows [] = .ok (sf, chunksP (pending s 0) ++ [[]], []) ∧
      sf.version_downloads = s.version_downloads.map
        (finalizeRow (chunksP (pending s 0)) 0 nows) ∧
      sf.versions = s.versions.map (fun v =>
        { v with downloads := v.downloads + versionsDelta (pending s 0) v.id }) ∧
      sf.crates = s.crates.map (fun c =>
        { c with downloads := c.downloads + cratesDelta s (pending s 0) c.id }) ∧
      sf.crate_downloads = dailyReplay s (pending s 0) s.crate_downloads ∧
      sf.total_downloads = s.total_downloads + pageDelta (pending s 0) :=
  updateGo_master nows (s.version_downloads.length + 1) s 0 0 hN hL (le_refl 0)
    (Nat.lt_succ_of_le (pending_length_le s 0))

theorem finalizeRow_cases (cs : List (List VersionDownload)) (k0 : Nat) (nows : Nat → Int)
    (x : VersionDownload) :
    finalizeRow cs k0 nows x = x ∨
      (x.counted ≠ x.downloads ∧ ∃ j, chunkIdx cs x.id = some j ∧
        finalizeRow cs k0 nows x =
          { x with processed := decide (x.date < nows (k0 + j) - secondsPerDay),
                   counted := x.downloads }) := by
  by_cases hsk : x.counted = x.downloads
  · exact Or.inl (finalizeRow_skip hsk cs k0 nows)
  · cases hc : chunkIdx cs x.id with
    | none => exact Or.inl (finalizeRow_none x hc k0 nows)
    | some j =>
      exact Or.inr ⟨hsk, j, rfl,
        by rw [finalizeRow_some x hc k0 nows, if_neg (by simpa using hsk)]⟩

theorem finalizeRow_id (cs : List (List VersionDownload)) (k0 : Nat) (nows : Nat → Int)
    (x : VersionDownload) : (finalizeRow cs k0 nows x).id = x.id := by
  rcases finalizeRow_cases cs k0 nows x with h | ⟨_, j, _, h⟩
  · rw [h]
  · rw [h]

theorem lookupsOk_final {s sf : Store} (hL : LookupsOk s) {cs : List (List VersionDownload)}
    {k0 : Nat} {nows : Nat → Int}
    (hvd : sf.version_downloads = s.version_downloads.map (finalizeRow cs k0 nows))
    {g : Version → Version} (hver : sf.versions = s.versions.map g)
    (hg : ∀ v, (g v).id = v.id) : LookupsOk sf := by
  intro y hy hproc hcnt
  rw [hvd] at hy
  rcases List.mem_map.mp hy with ⟨x, hx, hxy⟩
  rcases finalizeRow_cases cs k0 nows x with hcase | ⟨_, j, hj, hcase⟩
  · rw [hcase] at hxy
    subst hxy
    rcases hL x hx hproc hcnt with ⟨v, hv, hvid⟩
    refine ⟨g v, ?_, ?_⟩
    · rw [hver]
      exact List.mem_map_of_mem g hv
    · rw [hg v]
      exact hvid
  · rw [hcase] at hxy
    subst hxy
    exact absurd rfl hcnt

theorem post_run_counted {s sf : Store} (hN : NodupIds s) {nows : Nat → Int}
    (hvd : sf.version_downloads = s.version_downloads.map
      (finalizeRow (chunksP (pending s 0)) 0 nows)) :
    ∀ y ∈ sf.version_downloads, y.processed = false → 0 < y.id →
      y.counted = y.downloads := by
  intro y hy hproc hpos
  rw [hvd] at hy
  rcases List.mem_map.mp hy with ⟨x, hx, hxy⟩
  cases hc : chunkIdx (chunksP (pending s 0)) x.id with
  | none =>
    rw [finalizeRow_none x hc 0 nows] at hxy
    subst hxy
    by_contra hcnt
    have hmem : x ∈ pending s 0 := mem_pending.mpr ⟨hx, hproc, hpos⟩
    have hmem2 : x ∈ (chunksP (pending s 0)).flatten := by
      rw [chunksP_flatten']
      exact hmem
    rcases chunkIdx_some_of_mem hmem2 with ⟨j, hj⟩
    rw [hj] at hc
    exact Option.noConfusion hc
  | some j =>
    rw [finalizeRow_some x hc 0 nows] at hxy
    by_cases hsk : x.counted = x.downloads
    · rw [if_pos (by simpa using hsk)] at hxy
      subst hxy
      exact hsk
    · rw [if_neg (by simpa using hsk)] at hxy
      subst hxy
      rfl

theorem dailyReplay_skip {s : Store} {L : List VersionDownload}
    (h : ∀ r ∈ L, r.counted = r.downloads) (ds : List CrateDownload) :
    dailyReplay s L ds = ds := by
  induction L generalizing ds with
  | nil => rfl
  | cons r rs ih =>
    rw [dailyReplay_cons_skip (h r (List.mem_cons_self _ _))]
    exact ih (fun q hq => h q (List.mem_cons_of_mem _ hq)) ds

theorem versionsDelta_zero {L : List VersionDownload} (h : ∀ r ∈ L, rowDelta r = 0)
    (vid : Int) : versionsDelta L vid = 0 := by
  apply List.sum_eq_zero
  intro z hz
  rcases List.mem_map.mp hz with ⟨r, hr, hze⟩
  subst hze
  rw [h r hr, ite_self]

theorem cratesDelta_zero {s : Store} {L : List VersionDownload}
    (h : ∀ r ∈ L, rowDelta r = 0) (cid : Int) : cratesDelta s L cid = 0 := by
  apply List.sum_eq_zero
  intro z hz
  rcases List.mem_map.mp hz with ⟨r, hr, hze⟩
  subst hze
  rw [h r hr, ite_self]

theorem pageDelta_zero {L : List VersionDownload} (h : ∀ r ∈ L, rowDelta r = 0) :
    pageDelta L = 0 := by
  apply List.sum_eq_zero
  intro z hz
  rcases List.mem_map.mp hz with ⟨r, hr, hze⟩
  subst hze
  exact h r hr

theorem pending_all_counted {s : Store}
    (hdone : ∀ y ∈ s.version_downloads, y.processed = false → 0 < y.id →
      y.counted = y.downloads) :
    ∀ r ∈ pending s 0, r.counted = r.downloads := by
  intro r hr
  rcases mem_pending.mp hr with ⟨h1, h2, h3⟩
  exact hdone r h1 h2 h3

theorem update_noop {s : Store} (hN : NodupIds s) (hL : LookupsOk s)
    (hdone : ∀ y ∈ s.version_downloads, y.processed = false → 0 < y.id →
      y.counted = y.downloads)
    (nows : Nat → Int) :
    update s nows [] = .ok (s, chunksP (pending s 0) ++ [[]], []) := by
  rcases update_master s nows hN hL with ⟨sf, heq, hvd, hver, hcr, hdaily, htot⟩
  have hpend : ∀ r ∈ pending s 0, r.counted = r.downloads := pending_all_counted hdone
  have hzero : ∀ r ∈ pending s 0, rowDelta r = 0 := fun r hr => rowDelta_zero (hpend r hr)
  have hsf : sf = s := by
    apply storeExt
    · rw [hvd]
      have h1 : s.version_downloads.map (finalizeRow (chunksP (pending s 0)) 0 nows) =
          s.version_downloads.map (fun x => x) := by
        apply List.map_congr_left
        intro x hx
        cases hc : chunkIdx (chunksP (pending s 0)) x.id with
        | none => exact finalizeRow_none x hc 0 nows
        | some j =>
          rcases chunkIdx_spec hc with ⟨c, hcg, q, hq, hqid⟩
          have hcmem : c ∈ chunksP (pending s 0) := List.get?_mem hcg
          have hqpend : q ∈ pending s 0 :=
            (mem_chunksP (pending s 0).length (pending s 0) (le_refl _) c hcmem).2 q hq
          have hqs : q ∈ s.version_downloads := (mem_pending.mp hqpend).1
          have hqx : q = x := eq_of_same_id hN hqs hx hqid
          have hxsk : x.counted = x.downloads := by
            rw [← hqx]
            exact hpend q hqpend
          rw [finalizeRow_some x hc 0 nows, if_pos (by simpa using hxsk)]
      rw [h1, List.map_id']
    · rw [hver]
      exact versions_map_zero s.versions _ (fun v _ => versionsDelta_zero hzero v.id)
    · rw [hcr]
      exact crates_map_zero s.crates _ (fun c _ => cratesDelta_zero hzero c.id)
    · rw [hdaily]
      exact dailyReplay_skip hpend s.crate_downloads
    · rw [htot, pageDelta_zero hzero, add_zero]
  rw [hsf] at heq
  exact heq

theorem pageDelta_flatten (cs : List (List VersionDownload)) :
    pageDelta cs.flatten = (cs.map pageDelta).sum := by
  induction cs with
  | nil => rfl
  | cons c cs ih => rw [List.flatten_cons, pageDelta_append, ih, List.map_cons, List.sum_cons]

theorem chunksP_chain : ∀ (n : Nat) (l : List VersionDownload), l.length ≤ n →
    l.Pairwise ltById →
    List.Chain' (fun p q => ∀ x ∈ p, ∀ y ∈ q, x.id < y.id) (chunksP l) := by
  intro n
  induction n with
  | zero =>
    intro l h _
    have : l = [] := List.length_eq_zero.mp (Nat.le_zero.mp h)
    subst this
    exact List.chain'_nil
  | succ n ih =>
    intro l h hpw
    match l with
    | [] => exact List.chain'_nil
    | a :: t =>
      rw [chunksP_cons_eq (by simp)]
      rw [List.chain'_cons']
      have hd := drop_limit_len (l := a :: t) (by simp)
      have hcross : ∀ x ∈ (a :: t).take LIMIT.toNat, ∀ y ∈ (a :: t).drop LIMIT.toNat,
          x.id < y.id := by
        have h2 : ((a :: t).take LIMIT.toNat ++ (a :: t).drop LIMIT.toNat).Pairwise
            ltById := by
          rw [List.take_append_drop]
          exact hpw
        exact fun x hx y hy => (List.pairwise_append.mp h2).2.2 x hx y hy
      constructor
      · intro y hy x hx z hz
        have hymem : y ∈ chunksP ((a :: t).drop LIMIT.toNat) := List.mem_of_mem_head? hy
        have hzdrop : z ∈ (a :: t).drop LIMIT.toNat :=
          (mem_chunksP _ _ (le_refl _) y hymem).2 z hz
        exact hcross x hx z hzdrop
      · exact ih _ (by omega) (hpw.sublist (List.drop_sublist ..))


theorem rangeRows_ids_nodup (n : Nat) : ((rangeRows n).map (fun r => r.id)).Nodup := by
  rw [rangeRows, List.map_map]
  refine (List.nodup_range n).map ?_
  intro a b h
  have h2 : Int.ofNat a + 1 = Int.ofNat b + 1 := h
  simp only [Int.ofNat_eq_natCast] at h2
  omega

theorem rangeRows_id_bounds (n : Nat) : ∀ r ∈ rangeRows n, 0 < r.id ∧ r.id ≤ (n : Int) := by
  intro r hr
  rw [rangeRows] at hr
  rcases List.mem_map.mp hr with ⟨i, hi, hre⟩
  subst hre
  have := List.mem_range.mp hi
  constructor
  · show (0 : Int) < Int.ofNat i + 1
    simp only [Int.ofNat_eq_natCast]
    omega
  · show (Int.ofNat i + 1) ≤ (n : Int)
    simp only [Int.ofNat_eq_natCast]
    omega

theorem rangeRows_fields (n : Nat) : ∀ r ∈ rangeRows n,
    r.version_id = 1 ∧ r.processed = false ∧ r.counted = r.downloads := by
  intro r hr
  rw [rangeRows] at hr
  rcases List.mem_map.mp hr with ⟨i, _, hre⟩
  subst hre
  exact ⟨rfl, rfl, rfl⟩

theorem rangeRows_sorted (n : Nat) : (rangeRows n).Pairwise leById := by
  rw [rangeRows]
  rw [List.pairwise_map]
  refine (List.pairwise_lt_range n).imp ?_
  intro a b h
  show (Int.ofNat a + 1) ≤ (Int.ofNat b + 1)
  simp only [Int.ofNat_eq_natCast]
  omega

theorem rangeRows_length (n : Nat) : (rangeRows n).length = n := by
  rw [rangeRows, List.length_map, List.length_range]

theorem c3s0_nodup : NodupIds c3s0 := by
  unfold NodupIds
  have hvd : c3s0.version_downloads = c3front ++ [c3row] := rfl
  rw [hvd, List.map_append]
  rw [List.nodup_append]
  refine ⟨rangeRows_ids_nodup 10000, List.nodup_singleton _, ?_⟩
  intro a ha hb
  rcases List.mem_map.mp ha with ⟨r, hr, hre⟩
  subst hre
  have h2 := (rangeRows_id_bounds 10000 r hr).2
  have h3 : r.id = c3row.id := by simpa using hb
  rw [c3row] at h3
  simp at h3
  omega

theorem c3s0_lookups : LookupsOk c3s0 := by
  intro r hr _ _
  refine ⟨⟨1, 1, 0⟩, by show _ ∈ [(⟨1, 1, 0⟩ : Version)]; simp, ?_⟩
  have hr2 : r ∈ c3front ++ [c3row] := hr
  rcases List.mem_append.mp hr2 with h | h
  · exact ((rangeRows_fields 10000 r h).1).symm
  · rw [List.mem_singleton] at h
    subst h
    rfl

theorem c3_pending : pending c3s0 0 = c3front ++ [c3row] := by
  rw [pending]
  have hfilter : (c3s0.version_downloads.filter
      (fun r => !r.processed && decide ((0 : Int) < r.id))) = c3front ++ [c3row] := by
    apply List.filter_eq_self.mpr
    intro x hx
    have hx2 : x ∈ c3front ++ [c3row] := hx
    rcases List.mem_append.mp hx2 with h | h
    · have h1 := (rangeRows_fields 10000 x h).2.1
      have h2 := (rangeRows_id_bounds 10000 x h).1
      rw [h1]
      simpa using h2
    · rw [List.mem_singleton] at h
      subst h
      decide
  show sortById (c3s0.version_downloads.filter
      (fun r => !r.processed && decide ((0 : Int) < r.id))) = _
  rw [hfilter]
  apply sortById_eq_of_sorted
  rw [List.pairwise_append]
  refine ⟨rangeRows_sorted 10000, List.pairwise_singleton .., ?_⟩
  intro x hx y hy
  rw [List.mem_singleton] at hy
  subst hy
  have := (rangeRows_id_bounds 10000 x hx).2
  show x.id ≤ c3row.id
  rw [c3row]
  simp
  omega

theorem c3_chunks : chunksP (c3front ++ [c3row]) = [c3front, [c3row]] := by
  have hlim : LIMIT.toNat = c3front.length := by
    rw [limit_toNat]
    show (10000 : Nat) = (rangeRows 10000).length
    rw [rangeRows_length]
  rw [chunksP_cons_eq (by simp)]
  have htake : (c3front ++ [c3row]).take LIMIT.toNat = c3front := by
    rw [hlim]
    exact List.take_left ..
  have hdrop : (c3front ++ [c3row]).drop LIMIT.toNat = [c3row] := by
    rw [hlim]
    exact List.drop_left ..
  rw [htake, hdrop]
  rw [chunksP_cons_eq (by simp)]
  rw [List.take_of_length_le (by rw [limit_toNat]; simp)]
  rw [List.drop_eq_nil_of_le (by rw [limit_toNat]; simp)]
  rfl

theorem c3_idx : chunkIdx [c3front, [c3row]] c3row.id = some 1 := by
  simp only [chunkIdx]
  rw [if_neg]
  · rw [if_pos (by simp)]
    rfl
  · intro h
    rcases List.any_eq_true.mp h with ⟨r, hr, hid⟩
    have h2 := (rangeRows_id_bounds 10000 r hr).2
    have h3 : r.id = c3row.id := by simpa using hid
    rw [c3row] at h3
    simp at h3
    omega
/-- Claim C1: running the aggregation twice with no intervening external
writes is idempotent — after a successful first run, a second run (under
any clock) returns the exact same store: every fetched row already has
`counted = downloads`, so every row is skipped and every aggregate and the
global counter stay unchanged. -/
theorem C1_idempotence {s s1 : Store} {nows1 : Nat → Int}
    {pages1 : List (List VersionDownload)}
    (hN : NodupIds s) (hL : LookupsOk s)
    (h1 : update s nows1 [] = Except.ok (s1, pages1, [])) :
    ∀ nows2 : Nat → Int,
      update s1 nows2 [] = Except.ok (s1, chunksP (pending s1 0) ++ [[]], []) := by
  rcases update_master s nows1 hN hL with ⟨sf, heq, hvd, hver, hcr, hdaily, htot⟩
  rw [h1] at heq
  have h2 := heq
  simp only [Except.ok.injEq, Prod.mk.injEq] at h2
  have hs1 : s1 = sf := h2.1
  subst hs1
  have hN1 : NodupIds s1 := nodupIds_of_vd_map hN (fun x => finalizeRow_id _ 0 nows1 x) hvd
  have hL1 : LookupsOk s1 := lookupsOk_final hL hvd hver (fun v => rfl)
  exact fun nows2 => update_noop hN1 hL1 (post_run_counted hN hvd) nows2

/-- Witness for C1 at a one-row store: after the first run has counted the
row, a second run under a different clock is an exact no-op. -/
theorem C1_idempotence_witness :
    update c1s1 (fun _ => 5) [] = Except.ok (c1s1, chunksP (pending c1s1 0) ++ [[]], []) :=
  @C1_idempotence c1s0 c1s1 (fun _ => 0) [[⟨1, 1, 0, 1, 0, false⟩], []]
    (by decide) (by decide) (by decide) (fun _ => 5)

/-- Claim C2: conservation — a failure-free run increases every version
aggregate by exactly the summed delta (`downloads - counted`) of that
version's pending rows, every crate aggregate by the summed delta of the
rows its versions own, and the global counter by the per-page totals, one
increment per fetched page. -/
theorem C2_conservation (s : Store) (nows : Nat → Int)
    (hN : NodupIds s) (hL : LookupsOk s) :
    ∃ (sf : Store) (pages : List (List VersionDownload)),
      update s nows [] = Except.ok (sf, pages, []) ∧
      sf.versions = s.versions.map (fun v =>
        { v with downloads := v.downloads + versionsDelta (pending s 0) v.id }) ∧
      sf.crates = s.crates.map (fun c =>
        { c with downloads := c.downloads + cratesDelta s (pending s 0) c.id }) ∧
      sf.total_downloads = s.total_downloads + (pages.map pageDelta).sum := by
  rcases update_master s nows hN hL with ⟨sf, heq, hvd, hver, hcr, hdaily, htot⟩
  refine ⟨sf, chunksP (pending s 0) ++ [[]], heq, hver, hcr, ?_⟩
  rw [htot, List.map_append, List.sum_append, ← pageDelta_flatten, chunksP_flatten']
  simp [pageDelta]

/-- Witness for C2 at a two-row, one-version store. -/
theorem C2_conservation_witness :
    ∃ (sf : Store) (pages : List (List VersionDownload)),
      update c2s0 (fun _ => 0) [] = Except.ok (sf, pages, []) ∧
      sf.versions = c2s0.versions.map (fun v =>
        { v with downloads := v.downloads + versionsDelta (pending c2s0 0) v.id }) ∧
      sf.crates = c2s0.crates.map (fun c =>
        { c with downloads := c.downloads + cratesDelta c2s0 (pending c2s0 0) c.id }) ∧
      sf.total_downloads = c2s0.total_downloads + (pages.map pageDelta).sum :=
  C2_conservation c2s0 (fun _ => 0) (by decide) (by decide)
/-- Claim C3 (counterexample): the freeze cutoff is not a single run-start
timestamp — `collect` recomputes `now - 24h` at the start of every page.
With a backlog of 10001 rows the run fetches two pages, and a row of the
second page is frozen (`processed = true`) although its date is not older
than the run-start cutoff `nows 0 - 24h`. -/
theorem mainCommit_of_ok {s sf : Store} {nows : Nat → Int} {sched : List Bool}
    {pages : List (List VersionDownload)} {rest : List Bool}
    (h : update s nows sched = .ok (sf, pages, rest)) : mainCommit s nows sched = sf := by
  unfold mainCommit
  rw [h]

theorem c3_final_eq : finalizeRow (chunksP (pending c3s0 0)) 0 c3nows c3row = c3rowFinal := by
  rw [c3_pending, c3_chunks]
  rw [finalizeRow_some c3row c3_idx 0 c3nows]
  rw [if_neg (by decide)]
  decide

theorem c3_row_mem : c3row ∈ c3s0.version_downloads :=
  List.mem_append_right c3front (List.mem_singleton_self c3row)

theorem C3_run_start_cutoff_counterexample :
    c3rowFinal ∈ (mainCommit c3s0 c3nows []).version_downloads ∧
    c3rowFinal.id = c3row.id ∧ c3rowFinal.processed = true ∧
    ¬ (c3row.date < c3nows 0 - secondsPerDay) := by
  rcases update_master c3s0 c3nows c3s0_nodup c3s0_lookups with
    ⟨sf, heq, hvd, hver, hcr, hdaily, htot⟩
  refine ⟨?_, rfl, rfl, by decide⟩
  rw [mainCommit_of_ok heq, hvd]
  exact List.mem_map.mpr ⟨c3row, c3_row_mem, c3_final_eq⟩

/-- Claim C3 (amended): the freeze cutoff is per page — in a failure-free
run, a fetched row with something to count that lands in page `j` is
frozen iff its date is older than `nows j - 24h`, the wall-clock reading
taken when page `j` was collected, not the run-start reading. -/
theorem C3_per_page_cutoff (s : Store) (nows : Nat → Int)
    (hN : NodupIds s) (hL : LookupsOk s) :
    ∃ sf : Store,
      update s nows [] = Except.ok (sf, chunksP (pending s 0) ++ [[]], []) ∧
      sf.version_downloads = s.version_downloads.map
        (finalizeRow (chunksP (pending s 0)) 0 nows) ∧
      ∀ (r : VersionDownload) (j : Nat),
        chunkIdx (chunksP (pending s 0)) r.id = some j →
        r.counted ≠ r.downloads →
        finalizeRow (chunksP (pending s 0)) 0 nows r =
          { r with processed := decide (r.date < nows j - secondsPerDay),
                   counted := r.downloads } := by
  rcases update_master s nows hN hL with ⟨sf, heq, hvd, hver, hcr, hdaily, htot⟩
  refine ⟨sf, heq, hvd, ?_⟩
  intro r j hj hne
  rw [finalizeRow_some r hj 0 nows, if_neg (by simpa using hne)]
  rw [Nat.zero_add]

/-- Witness for the amended C3 at a one-row store. -/
theorem C3_per_page_cutoff_witness :
    ∃ sf : Store,
      update c3ws0 (fun _ => 100) [] =
        Except.ok (sf, chunksP (pending c3ws0 0) ++ [[]], []) ∧
      sf.version_downloads = c3ws0.version_downloads.map
        (finalizeRow (chunksP (pending c3ws0 0)) 0 (fun _ => 100)) ∧
      ∀ (r : VersionDownload) (j : Nat),
        chunkIdx (chunksP (pending c3ws0 0)) r.id = some j →
        r.counted ≠ r.downloads →
        finalizeRow (chunksP (pending c3ws0 0)) 0 (fun _ => 100) r =
          { r with processed := decide (r.date < (fun _ : Nat => (100 : Int)) j - secondsPerDay),
                   counted := r.downloads } :=
  C3_per_page_cutoff c3ws0 (fun _ => 100) (by decide) (by decide)

/-- Claim C4 (counterexample): a pending row whose date is far older than
the 24-hour cutoff but whose `counted` already equals `downloads` is
skipped before the write-back, so one run does not set `processed` — the
run returns the store unchanged and the row stays unprocessed. -/
theorem C4_stale_skip_counterexample :
    update c4s (fun _ => 1000000) [] = Except.ok (c4s, [[c4row], []], []) ∧
    c4row ∈ c4s.version_downloads ∧ c4row.counted = c4row.downloads ∧
    c4row.date < 1000000 - secondsPerDay ∧
    c4row.processed = false := by
  decide

/-- Claim C4 (amended): a pending row older than its page's cutoff is
frozen by one run provided it has something to count (`counted ≠
downloads`); afterwards no page query at any cursor position returns a
row with its id. -/
theorem C4_freeze (s : Store) (nows : Nat → Int) (s1 : Store)
    (pages : List (List VersionDownload)) (r : VersionDownload) (j : Nat)
    (hN : NodupIds s) (hL : LookupsOk s)
    (h1 : update s nows [] = Except.ok (s1, pages, []))
    (hr : r ∈ s.version_downloads) (hcnt : r.counted ≠ r.downloads)
    (hj : chunkIdx (chunksP (pending s 0)) r.id = some j)
    (hdate : r.date < nows j - secondsPerDay) :
    { r with processed := true, counted := r.downloads } ∈ s1.version_downloads ∧
    ∀ (m : Int) (x : VersionDownload), x ∈ pageQuery s1 m → x.id ≠ r.id := by
  rcases update_master s nows hN hL with ⟨sf, heq, hvd, hver, hcr, hdaily, htot⟩
  rw [h1] at heq
  have h2 := heq
  simp only [Except.ok.injEq, Prod.mk.injEq] at h2
  have hs1 : s1 = sf := h2.1
  subst hs1
  have hfr : finalizeRow (chunksP (pending s 0)) 0 nows r =
      { r with processed := true, counted := r.downloads } := by
    rw [finalizeRow_some r hj 0 nows, if_neg (by simpa using hcnt)]
    have hdec : decide (r.date < nows (0 + j) - secondsPerDay) = true := by
      rw [Nat.zero_add]
      exact decide_eq_true hdate
    rw [hdec]
  constructor
  · rw [hvd]
    exact List.mem_map.mpr ⟨r, hr, hfr⟩
  · intro m x hx hxid
    have hxp : x ∈ pending s1 m := List.take_subset _ _ hx
    rcases mem_pending.mp hxp with ⟨hxvd, hxproc, _⟩
    rw [hvd] at hxvd
    rcases List.mem_map.mp hxvd with ⟨y, hy, hyx⟩
    have hyid : y.id = r.id := by
      rw [← finalizeRow_id (chunksP (pending s 0)) 0 nows y, hyx, hxid]
    have hyr : y = r := eq_of_same_id hN hy hr hyid
    subst hyr
    rw [hfr] at hyx
    rw [← hyx] at hxproc
    simp at hxproc

/-- Witness for the amended C4 at a one-row store with a stale date. -/
theorem C4_freeze_witness :
    ({ c4wrow with processed := true, counted := c4wrow.downloads } ∈
        c4ws1.version_downloads ∧
      ∀ (m : Int) (x : VersionDownload), x ∈ pageQuery c4ws1 m → x.id ≠ c4wrow.id) :=
  C4_freeze c4ws (fun _ => 1000000) c4ws1 [[c4wrow], []] c4wrow 0
    (by decide) (by decide) (by decide) (by decide) (by decide) (by decide) (by decide)
/-- Claim C5 (counterexample): a fetched row with `downloads < counted` is
not surfaced as an error — the run succeeds and silently folds the
negative delta into the version, crate, daily and global aggregates,
decrementing each of them. -/
theorem C5_negative_delta_counterexample :
    c5row.downloads < c5row.counted ∧
    update c5s (fun _ => 100) [] = Except.ok (c5s1, [[c5row], []], []) ∧
    c5s.versions = [⟨1, 1, 10⟩] ∧ c5s1.versions = [⟨1, 1, 5⟩] ∧
    c5s.crates = [⟨1, 20⟩] ∧ c5s1.crates = [⟨1, 15⟩] ∧
    c5s.total_downloads = 100 ∧ c5s1.total_downloads = 95 ∧
    c5s1.crate_downloads = [⟨1, 5, -5⟩] := by
  decide

/-- Claim C5 (amended): whenever a fetched one-row backlog has
`downloads < counted`, the run succeeds anyway and the negative delta
`downloads - counted` is applied to the version, crate, daily and global
aggregates, silently decrementing them. -/
theorem C5_silent_decrement (d c : Int) (hdc : d < c) :
    ∃ (sf : Store) (pages : List (List VersionDownload)),
      update (c5fam d c) (fun _ => 100) [] = Except.ok (sf, pages, []) ∧
      sf.versions = [⟨1, 1, 10 + (d - c)⟩] ∧
      sf.crates = [⟨1, 20 + (d - c)⟩] ∧
      sf.crate_downloads = [⟨1, 5, d - c⟩] ∧
      sf.total_downloads = 100 + (d - c) ∧
      d - c < 0 := by
  have hN : NodupIds (c5fam d c) := by
    unfold NodupIds
    show (([(⟨1, 1, 5, d, c, false⟩ : VersionDownload)]).map (fun r => r.id)).Nodup
    simp
  have hL : LookupsOk (c5fam d c) := by
    intro r hr _ _
    have hr2 : r ∈ [(⟨1, 1, 5, d, c, false⟩ : VersionDownload)] := hr
    rw [List.mem_singleton] at hr2
    subst hr2
    exact ⟨⟨1, 1, 10⟩, List.mem_singleton_self _, rfl⟩
  rcases update_master (c5fam d c) (fun _ => 100) hN hL with
    ⟨sf, heq, hvd, hver, hcr, hdaily, htot⟩
  have hskip : ((c : Int) == d) = false := beq_eq_false_iff_ne.mpr (by omega)
  have hpend : pending (c5fam d c) 0 = [(⟨1, 1, 5, d, c, false⟩ : VersionDownload)] := rfl
  rw [hpend] at hver hcr hdaily htot
  refine ⟨sf, chunksP (pending (c5fam d c) 0) ++ [[]], heq, ?_, ?_, ?_, ?_, by omega⟩
  · rw [hver]
    simp [c5fam, versionsDelta, rowDelta]
  · rw [hcr]
    simp [c5fam, cratesDelta, crateOf, findVersion, rowDelta]
  · rw [hdaily]
    simp [c5fam, dailyReplay, hskip, upsertDaily, crateOf, findVersion, rowDelta]
    omega
  · rw [htot]
    simp [c5fam, pageDelta, rowDelta]

/-- Witness for the amended C5 at `downloads = 0, counted = 5`. -/
theorem C5_silent_decrement_witness :
    ∃ (sf : Store) (pages : List (List VersionDownload)),
      update (c5fam 0 5) (fun _ => 100) [] = Except.ok (sf, pages, []) ∧
      sf.versions = [⟨1, 1, 10 + (0 - 5)⟩] ∧
      sf.crates = [⟨1, 20 + (0 - 5)⟩] ∧
      sf.crate_downloads = [⟨1, 5, 0 - 5⟩] ∧
      sf.total_downloads = 100 + (0 - 5) ∧
      (0 : Int) - 5 < 0 :=
  C5_silent_decrement 0 5 (by decide)

/-- Claim C6: a run that fails mid-way has no effect — `main` only commits
the top-level transaction after `update` returns `Ok`, so an erroring run
leaves every table and counter of the store unchanged. -/
theorem C6_rollback (s : Store) (nows : Nat → Int) (sched : List Bool) (e : DbErr)
    (h : update s nows sched = Except.error e) : mainCommit s nows sched = s := by
  unfold mainCommit
  rw [h]

/-- Witness for C6: a first-operation failure rolls the run back. -/
theorem C6_rollback_witness : mainCommit c6s (fun _ => 0) [true] = c6s :=
  C6_rollback c6s (fun _ => 0) [true] DbErr.transient (by decide)

/-- Claim C7: freeze monotonicity — rows with `processed = true` are never
modified by a run: they keep their exact position and value in the table,
and no fetched page ever contains a processed row. -/
theorem C7_freeze_monotonicity (s : Store) (nows : Nat → Int)
    (hN : NodupIds s) (hL : LookupsOk s) :
    ∃ (sf : Store) (pages : List (List VersionDownload)),
      update s nows [] = Except.ok (sf, pages, []) ∧
      (∀ (i : Nat) (x : VersionDownload), s.version_downloads.get? i = some x →
        x.processed = true → sf.version_downloads.get? i = some x) ∧
      (∀ p ∈ pages, ∀ r ∈ p, r.processed = false) := by
  rcases update_master s nows hN hL with ⟨sf, heq, hvd, hver, hcr, hdaily, htot⟩
  refine ⟨sf, chunksP (pending s 0) ++ [[]], heq, ?_, ?_⟩
  · intro i x hgi hxproc
    rw [hvd, List.get?_map, hgi]
    show some (finalizeRow (chunksP (pending s 0)) 0 nows x) = some x
    congr 1
    cases hc : chunkIdx (chunksP (pending s 0)) x.id with
    | none => exact finalizeRow_none x hc 0 nows
    | some j =>
      exfalso
      rcases chunkIdx_spec hc with ⟨cpage, hcg, q, hq, hqid⟩
      have hcmem : cpage ∈ chunksP (pending s 0) := List.get?_mem hcg
      have hqpend : q ∈ pending s 0 :=
        (mem_chunksP (pending s 0).length _ (le_refl _) cpage hcmem).2 q hq
      rcases mem_pending.mp hqpend with ⟨hqs, hqproc, _⟩
      have hx : x ∈ s.version_downloads := List.get?_mem hgi
      have hqx : q = x := eq_of_same_id hN hqs hx hqid
      rw [hqx, hxproc] at hqproc
      exact Bool.noConfusion hqproc
  · intro p hp r hrp
    rcases List.mem_append.mp hp with hp1 | hp1
    · have hrpend := (mem_chunksP (pending s 0).length _ (le_refl _) p hp1).2 r hrp
      exact (mem_pending.mp hrpend).2.1
    · rw [List.mem_singleton] at hp1
      subst hp1
      simp at hrp

/-- Witness for C7 at a store with one processed and one pending row. -/
theorem C7_freeze_monotonicity_witness :
    ∃ (sf : Store) (pages : List (List VersionDownload)),
      update c7s (fun _ => 0) [] = Except.ok (sf, pages, []) ∧
      (∀ (i : Nat) (x : VersionDownload), c7s.version_downloads.get? i = some x →
        x.processed = true → sf.version_downloads.get? i = some x) ∧
      (∀ p ∈ pages, ∀ r ∈ p, r.processed = false) :=
  C7_freeze_monotonicity c7s (fun _ => 0) (by decide) (by decide)

/-- Claim C8: batch exhaustion — a failure-free run over a backlog of `K`
pending rows fetches exactly `ceil(K / LIMIT)` non-empty pages followed by
one final empty page (after which no further page is fetched), and the
ids of consecutive pages are strictly increasing, so no row is read twice
within the run. -/
theorem C8_batch_exhaustion (s : Store) (nows : Nat → Int)
    (hN : NodupIds s) (hL : LookupsOk s) :
    ∃ (sf : Store) (pages : List (List VersionDownload)),
      update s nows [] = Except.ok (sf, pages, []) ∧
      pages.length = ((pending s 0).length + LIMIT.toNat - 1) / LIMIT.toNat + 1 ∧
      pages.getLast? = some [] ∧
      (∀ p ∈ pages.dropLast, p ≠ []) ∧
      List.Chain' (fun p q => ∀ x ∈ p, ∀ y ∈ q, x.id < y.id) pages := by
  rcases update_master s nows hN hL with ⟨sf, heq, hvd, hver, hcr, hdaily, htot⟩
  refine ⟨sf, chunksP (pending s 0) ++ [[]], heq, ?_, ?_, ?_, ?_⟩
  · rw [List.length_append, chunksP_length (pending s 0).length _ (le_refl _)]
    rfl
  · exact List.getLast?_concat _
  · rw [List.dropLast_concat]
    intro p hp
    exact (mem_chunksP (pending s 0).length _ (le_refl _) p hp).1
  · rw [List.chain'_append]
    refine ⟨chunksP_chain (pending s 0).length _ (le_refl _) (pending_pairwise_lt hN 0),
      List.chain'_singleton _, ?_⟩
    intro x _ y hy
    simp only [List.head?_cons, Option.mem_def, Option.some.injEq] at hy
    subst hy
    intro a _ b hb
    simp at hb

/-- Witness for C8 at a two-row backlog (one page plus the empty page). -/
theorem C8_batch_exhaustion_witness :
    ∃ (sf : Store) (pages : List (List VersionDownload)),
      update c8s (fun _ => 0) [] = Except.ok (sf, pages, []) ∧
      pages.length = ((pending c8s 0).length + LIMIT.toNat - 1) / LIMIT.toNat + 1 ∧
      pages.getLast? = some [] ∧
      (∀ p ∈ pages.dropLast, p ≠ []) ∧
      List.Chain' (fun p q => ∀ x ∈ p, ∀ y ∈ q, x.id < y.id) pages :=
  C8_batch_exhaustion c8s (fun _ => 0) (by decide) (by decide)
/-- Claim C9 (counterexample): a transient failure in a daemon-mode run
does not terminate only that run — `update(&tx).unwrap()` panics, killing
the whole daemon process, so no later sleep cycle runs, even though the
next cycle's run (shown second) would have succeeded. -/
theorem C9_daemon_death_counterexample :
    daemonGo c9nowss c9scheds 0 2 c9s = Except.error DbErr.transient ∧
    update c9s (c9nowss 1) (c9scheds 1) =
      Except.ok (c9s1, [[⟨1, 1, 0, 2, 0, false⟩], []], []) := by
  decide

/-- Claim C9 (amended): in daemon mode a run that fails with a store error
stops the whole daemon loop — however many sleep cycles remain, the
process dies with that error and no further run is started. -/
theorem C9_run_failure_kills_daemon (s : Store) (nowss : Nat → Nat → Int)
    (scheds : Nat → List Bool) (e : DbErr) (n : Nat)
    (h : update s (nowss 0) (scheds 0) = Except.error e) :
    daemonGo nowss scheds 0 (n + 1) s = Except.error e := by
  simp only [daemonGo]
  rw [h]

/-- Witness for the amended C9: one failed run kills a two-cycle daemon. -/
theorem C9_run_failure_kills_daemon_witness :
    daemonGo c9nowss c9scheds 0 (1 + 1) c9s = Except.error DbErr.transient :=
  C9_run_failure_kills_daemon c9s c9nowss c9scheds DbErr.transient 1 (by decide)

/-- Claim C10: a fetched row whose `counted` equals `downloads` is skipped
with no write at all: it survives the run unchanged (still unprocessed,
aggregates and total unaffected by it), appears in the run's fetched
pages, is pending again immediately after the run, and a second run over
the resulting store is again an exact no-op that re-fetches it. -/
theorem C10_skip_frame (s : Store) (nows : Nat → Int) (s1 : Store)
    (pages : List (List VersionDownload)) (r : VersionDownload)
    (hN : NodupIds s) (hL : LookupsOk s)
    (hr : r ∈ s.version_downloads) (hproc : r.processed = false)
    (hpos : 0 < r.id) (hcnt : r.counted = r.downloads)
    (h1 : update s nows [] = Except.ok (s1, pages, [])) :
    r ∈ s1.version_downloads ∧ r ∈ pages.flatten ∧ r ∈ pending s1 0 ∧
    ∀ nows2 : Nat → Int,
      update s1 nows2 [] = Except.ok (s1, chunksP (pending s1 0) ++ [[]], []) := by
  rcases update_master s nows hN hL with ⟨sf, heq, hvd, hver, hcr, hdaily, htot⟩
  rw [h1] at heq
  have h2 := heq
  simp only [Except.ok.injEq, Prod.mk.injEq] at h2
  obtain ⟨hs1, hpg, -⟩ := h2
  subst hs1
  subst hpg
  have hrin : r ∈ s1.version_downloads := by
    rw [hvd]
    exact List.mem_map.mpr ⟨r, hr, finalizeRow_skip hcnt _ 0 nows⟩
  refine ⟨hrin, ?_, ?_, ?_⟩
  · rw [List.flatten_append, chunksP_flatten']
    exact List.mem_append_left _ (mem_pending.mpr ⟨hr, hproc, hpos⟩)
  · exact mem_pending.mpr ⟨hrin, hproc, hpos⟩
  · have hN1 : NodupIds s1 := nodupIds_of_vd_map hN (fun x => finalizeRow_id _ 0 nows x) hvd
    have hL1 : LookupsOk s1 := lookupsOk_final hL hvd hver (fun v => rfl)
    exact fun nows2 => update_noop hN1 hL1 (post_run_counted hN hvd) nows2

/-- Witness for C10 at a one-row store whose row is already counted. -/
theorem C10_skip_frame_witness :
    c10row ∈ c10s.version_downloads ∧
    c10row ∈ ([[c10row], []] : List (List VersionDownload)).flatten ∧
    c10row ∈ pending c10s 0 ∧
    ∀ nows2 : Nat → Int,
      update c10s nows2 [] = Except.ok (c10s, chunksP (pending c10s 0) ++ [[]], []) :=
  C10_skip_frame c10s (fun _ => 0) c10s [[c10row], []] c10row
    (by decide) (by decide) (by decide) (by decide) (by decide) (by decide) (by decide)
